import Mathlib

/-!
Verification development for the hierarchical bloom-filter column index
(`bloom_value.cpp`, `bloomTree.cpp`, `bloom_manager.cpp`, `algorithm.hpp`,
`db_manager.cpp`).

Modelling conventions:
* Keys, values and file names are byte strings modelled as `List Char`
  (`Str`) with Mathlib's lexicographic linear order — the same total order as
  `std::string`'s `operator<`, and (unlike Lean's `String` order) one the
  kernel can evaluate.  The empty string doubles as the "unbounded" sentinel
  exactly as in the sources.
* The MurmurHash3 mixing function lives outside the repository; every
  definition is therefore parametrised by an arbitrary seeded hash
  `hash : Str → Nat → Nat`, and `% bitArraySize` is applied exactly where
  `BloomFilter::hash` applies it.  All theorems hold for every such hash.
* File contents are modelled by a storage map `Str → List (Str × Str)` of
  key/value records per file path; RocksDB iterator seeks/breaks become
  `dropWhile`/`takeWhile` over that list.
* Fallible C++ code (`throw`) is modelled with `Except`; the byte stream of a
  bloom sidecar file is a `List Nat` of byte values.
-/

/-- A byte string (`std::string`), with lexicographic order. -/
abbrev Str : Type := List Char

/-- Shorthand to write `Str` literals. -/
def str (s : String) : Str := s.data

/-- A seeded 32-bit hash, abstracting `MurmurHash3_x86_32` (value, seed). -/
def HashF : Type := Str → Nat → Nat

/-- The storage adapter: file path ↦ ordered key/value records of that file. -/
def Storage : Type := Str → List (Str × Str)

/-- Bloom filter state (`bloom_value.hpp`): bit array, hash count `k`,
declared bit-array length `m`. -/
structure BloomFilter where
  bitArray : List Bool
  numHashFunctions : Nat
  bitArraySize : Nat
  deriving Repr, DecidableEq

namespace BloomFilter

/-- `BloomFilter::BloomFilter(size, k)`: `m` zero bits. -/
def new (size k : Nat) : BloomFilter :=
  { bitArray := List.replicate size false
    numHashFunctions := k
    bitArraySize := size }

/-- `BloomFilter::hash`: seeded hash reduced modulo `bitArraySize`. -/
def hashIdx (hash : HashF) (bf : BloomFilter) (key : Str) (seed : Nat) : Nat :=
  hash key seed % bf.bitArraySize

/-- `BloomFilter::insert`: set bit `hash(key, i) % m` for `i ∈ [0, k)`. -/
def insert (hash : HashF) (bf : BloomFilter) (key : Str) : BloomFilter :=
  { bf with
    bitArray := (List.range bf.numHashFunctions).foldl
      (fun arr i => arr.set (bf.hashIdx hash key i) true) bf.bitArray }

/-- `BloomFilter::exists`: true iff all `k` probed bits are set. -/
def bexists (hash : HashF) (bf : BloomFilter) (key : Str) : Bool :=
  (List.range bf.numHashFunctions).all
    (fun i => bf.bitArray.getD (bf.hashIdx hash key i) false)

/-- `BloomFilter::merge`: in-place bitwise OR of the bit arrays; throws on a
bit-array length mismatch (before touching the receiver). -/
def merge (bf other : BloomFilter) : Except String BloomFilter :=
  if bf.bitArray.length ≠ other.bitArray.length then
    .error "BloomFilter size mismatch during merge"
  else
    .ok { bf with bitArray := bf.bitArray.zipWith (· || ·) other.bitArray }

end BloomFilter

/-- Little-endian fixed-width encoding of a machine integer, one `Nat < 256`
per byte (`file.write(reinterpret_cast<const char*>(&x), w)`). -/
def natToLEBytes : Nat → Nat → List Nat
  | 0, _ => []
  | w + 1, v => v % 256 :: natToLEBytes w (v / 256)

/-- Little-endian decoding of a byte list. -/
def leBytesToNat (bytes : List Nat) : Nat :=
  bytes.foldr (fun b acc => b + 256 * acc) 0

/-- The number whose binary digits (LSB first) are the given bits. -/
def bitsVal : List Bool → Nat
  | [] => 0
  | b :: rest => (if b then 1 else 0) + 2 * bitsVal rest

/-- One payload byte of the sidecar format: bits `8*j .. 8*j+7` of the filter,
least significant bit first (`buffer[i/8] |= 1 << (i % 8)`). -/
def byteOfBits (bit : Nat → Bool) (j : Nat) : Nat :=
  bitsVal ((List.range 8).map (fun t => bit (8 * j + t)))

namespace BloomFilter

/-- `BloomFilter::saveToFile`: `m` (8 bytes LE), `k` (4 bytes LE), then
`⌈m/8⌉` payload bytes packed LSB-first. -/
def saveToFile (bf : BloomFilter) : List Nat :=
  natToLEBytes 8 bf.bitArraySize ++ natToLEBytes 4 bf.numHashFunctions ++
    (List.range ((bf.bitArraySize + 7) / 8)).map
      (byteOfBits (fun i => i < bf.bitArraySize && bf.bitArray.getD i false))

/-- `BloomFilter::loadFromFile`: read `m` and `k` from the header, then unpack
`m` bits from the payload.  A missing payload byte reads as `0`, exactly as the
zero-initialised `std::vector<char> buffer` that a short `file.read` leaves
untouched — the reader never compares the payload length with `m`. -/
def loadFromFile (bytes : List Nat) : BloomFilter :=
  let m := leBytesToNat (bytes.take 8)
  let k := leBytesToNat ((bytes.drop 8).take 4)
  let payload := bytes.drop 12
  { bitArraySize := m
    numHashFunctions := k
    bitArray := (List.range m).map (fun i => ((payload.getD (i / 8) 0).testBit (i % 8))) }

end BloomFilter

/-- A tree node (`node.hpp`): bloom filter, source file name (`"Memory"` for
interior nodes), inclusive key range, children. -/
inductive Node where
  | mk (bloom : BloomFilter) (filename : Str) (startKey : Str) (endKey : Str)
      (children : List Node)

namespace Node

def bloom : Node → BloomFilter
  | .mk b _ _ _ _ => b

def filename : Node → Str
  | .mk _ f _ _ _ => f

def startKey : Node → Str
  | .mk _ _ s _ _ => s

def endKey : Node → Str
  | .mk _ _ _ e _ => e

def children : Node → List Node
  | .mk _ _ _ _ cs => cs

@[simp] theorem bloom_mk (b : BloomFilter) (f s e : Str) (cs : List Node) :
    (Node.mk b f s e cs).bloom = b := rfl

@[simp] theorem filename_mk (b : BloomFilter) (f s e : Str) (cs : List Node) :
    (Node.mk b f s e cs).filename = f := rfl

@[simp] theorem startKey_mk (b : BloomFilter) (f s e : Str) (cs : List Node) :
    (Node.mk b f s e cs).startKey = s := rfl

@[simp] theorem endKey_mk (b : BloomFilter) (f s e : Str) (cs : List Node) :
    (Node.mk b f s e cs).endKey = e := rfl

@[simp] theorem children_mk (b : BloomFilter) (f s e : Str) (cs : List Node) :
    (Node.mk b f s e cs).children = cs := rfl

theorem sizeOf_lt_of_mem_children {c n : Node} (h : c ∈ n.children) :
    sizeOf c < sizeOf n := by
  cases n with
  | mk b f s e cs =>
    simp only [children] at h
    have := List.sizeOf_lt_of_mem h
    simp only [mk.sizeOf_spec]
    omega

/-- All nodes of the subtree rooted at `n` (the node itself first). -/
def allNodes (n : Node) : List Node :=
  n :: (n.children.attach.map (fun c => allNodes c.1)).flatten
termination_by sizeOf n
decreasing_by exact sizeOf_lt_of_mem_children c.2

/-- The leaves (childless nodes) of the subtree rooted at `n`. -/
def leavesList (n : Node) : List Node :=
  n.allNodes.filter (fun d => d.children.isEmpty)

end Node

/-- The `"Memory"` source tag marking interior nodes. -/
def memoryTag : Str := str "Memory"

/-- The overlap test of `BloomTree::search`:
`(qEnd empty ∨ startKey ≤ qEnd) ∧ (qStart empty ∨ endKey ≥ qStart)`. -/
def overlaps (n : Node) (qStart qEnd : Str) : Prop :=
  (qEnd = [] ∨ n.startKey ≤ qEnd) ∧ (qStart = [] ∨ qStart ≤ n.endKey)

instance (n : Node) (qStart qEnd : Str) : Decidable (overlaps n qStart qEnd) := by
  unfold overlaps; infer_instance

namespace BloomTree

/-- `BloomTree::search`: depth-first filter-and-range pruned collection of
leaf file names.  (The global probe counters the C++ function bumps are
side effects outside the result value and are not modelled here.) -/
def search (hash : HashF) (value qStart qEnd : Str) (n : Node) : List Str :=
  if overlaps n qStart qEnd then
    if n.bloom.bexists hash value then
      if n.filename ≠ memoryTag then [n.filename]
      else (n.children.attach.map (fun c => search hash value qStart qEnd c.1)).flatten
    else []
  else []
termination_by sizeOf n
decreasing_by exact Node.sizeOf_lt_of_mem_children c.2

/-- `BloomTree::query`: run `search` from the root. -/
def query (hash : HashF) (root : Node) (value qStart qEnd : Str) : List Str :=
  search hash value qStart qEnd root

end BloomTree

/-- A root-to-leaf emission path: every node on the way down overlaps the
query range and tests filter-positive; interior nodes are tagged `"Memory"`,
the emitting endpoint is any non-`"Memory"` node, whose file name is emitted. -/
inductive ReachEmit (hash : HashF) (value qStart qEnd : Str) : Node → Str → Prop where
  | emit (n : Node) (hov : overlaps n qStart qEnd)
      (hpos : n.bloom.bexists hash value = true) (hleaf : n.filename ≠ memoryTag) :
      ReachEmit hash value qStart qEnd n n.filename
  | step (n c : Node) (f : Str) (hov : overlaps n qStart qEnd)
      (hpos : n.bloom.bexists hash value = true) (hint : n.filename = memoryTag)
      (hc : c ∈ n.children) (hrec : ReachEmit hash value qStart qEnd c f) :
      ReachEmit hash value qStart qEnd n f

/-- Worker for `chunksTake`, structurally recursive on a fuel argument so
that the kernel can evaluate it (the fuel never runs out when seeded with the
list length). -/
def chunksTakeAux (N : Nat) : Nat → List α → List (List α)
  | _, [] => []
  | 0, _ :: _ => []
  | fuel + 1, x :: rest => (x :: rest.take (N - 1)) :: chunksTakeAux N fuel (rest.drop (N - 1))

/-- Consecutive runs of `N` elements (the last may be shorter); for `N ≤ 1`
the runs have size one, matching the accumulate-and-emit loop of
`BloomManager::processSSTFile` for `partitionSize ≤ 1`. -/
def chunksTake (N : Nat) (l : List α) : List (List α) :=
  chunksTakeAux N l.length l

theorem chunksTakeAux_eq (N : Nat) :
    ∀ (fuel : Nat) (l : List α), l.length ≤ fuel →
      chunksTakeAux N fuel l = chunksTake N l
  | fuel, [], _ => by cases fuel <;> rfl
  | 0, x :: rest, h => by simp at h
  | fuel + 1, x :: rest, h => by
    have hd : (rest.drop (N - 1)).length ≤ fuel := by
      simp only [List.length_cons] at h
      simp only [List.length_drop]
      omega
    have hd' : (rest.drop (N - 1)).length ≤ rest.length := by
      simp only [List.length_drop]
      omega
    show (x :: rest.take (N - 1)) :: chunksTakeAux N fuel (rest.drop (N - 1)) = _
    rw [chunksTakeAux_eq N fuel _ hd]
    show _ = (x :: rest.take (N - 1)) :: chunksTakeAux N rest.length (rest.drop (N - 1))
    rw [chunksTakeAux_eq N rest.length _ hd']

@[simp] theorem chunksTake_nil (N : Nat) : chunksTake N ([] : List α) = [] := rfl

theorem chunksTake_cons (N : Nat) (x : α) (rest : List α) :
    chunksTake N (x :: rest) =
      (x :: rest.take (N - 1)) :: chunksTake N (rest.drop (N - 1)) := by
  show chunksTakeAux N (rest.length + 1) (x :: rest) = _
  rw [show chunksTakeAux N (rest.length + 1) (x :: rest) =
    (x :: rest.take (N - 1)) :: chunksTakeAux N rest.length (rest.drop (N - 1)) from rfl,
    chunksTakeAux_eq N rest.length _ (by simp [List.length_drop])]

/-- Insert a list of values left to right. -/
def BloomFilter.insertList (hash : HashF) (bf : BloomFilter) (vs : List Str) :
    BloomFilter :=
  vs.foldl (fun b v => b.insert hash v) bf

/-- The accumulate-and-emit loop of `BloomManager::processSSTFile`, state held
as (remaining records, currentCount, partitionBloom, partitionStartKey,
firstEntry, lastKey).  A partition is emitted when `currentCount` reaches
`partitionSize`, and once more at iterator end when non-empty; `lastKey` and
`partitionStartKey` persist across emissions exactly as in the C++. -/
def processGo (hash : HashF) (m k N : Nat) (file : Str) :
    List (Str × Str) → Nat → BloomFilter → Str → Bool → Str → List Node
  | [], cnt, bloom, startK, _, lastK =>
    if 0 < cnt then [Node.mk bloom file startK lastK []] else []
  | (key, value) :: rest, cnt, bloom, startK, firstEntry, _ =>
    let startK' := if firstEntry then key else startK
    let bloom' := bloom.insert hash value
    if N ≤ cnt + 1 then
      Node.mk bloom' file startK' key [] ::
        processGo hash m k N file rest 0 (BloomFilter.new m k) startK' true key
    else
      processGo hash m k N file rest (cnt + 1) bloom' startK' false key

/-- `BloomManager::processSSTFile` on the records of `file`. -/
def processSSTFile (hash : HashF) (m k N : Nat) (file : Str)
    (records : List (Str × Str)) : List Node :=
  processGo hash m k N file records 0 (BloomFilter.new m k) [] true []

/-- Declarative description of one emitted leaf: filter over the run's
values, range from the run's first and last key (spec side of claim C4). -/
def mkLeaf (hash : HashF) (m k : Nat) (file : Str) (run : List (Str × Str)) :
    Node :=
  Node.mk ((BloomFilter.new m k).insertList hash (run.map Prod.snd)) file
    ((run.map Prod.fst).headD []) ((run.map Prod.fst).getLastD []) []

/-- One parent of `BloomTree::buildLevel`: empty `(m, k)` filter merged with
every group member, range seeded from the group's first/last member and then
widened over the group — net effect: the min/max over the whole group. -/
def mkParent (m k : Nat) (g : List Node) : Except String Node :=
  match g with
  | [] => .error "empty group"
  | c :: _ => do
    let bl ← g.foldlM (fun acc child => acc.merge child.bloom) (BloomFilter.new m k)
    pure (Node.mk bl memoryTag
      (g.foldl (fun a d => min a d.startKey) c.startKey)
      (g.foldl (fun a d => max a d.endKey) c.endKey) g)

/-- One level of `BloomTree::buildLevel`: group the current level into
consecutive runs of `ratio` and build one parent per group. -/
def buildLevelStep (m k r : Nat) (nodes : List Node) : Except String (List Node) :=
  (chunksTake r nodes).mapM (mkParent m k)

/-- `BloomTree::buildLevel`, with explicit fuel standing for the call stack:
`none` means the recursion never reaches a single node (the C++ recurses
forever), `some (.error e)` a propagated merge failure, `some (.ok root)` the
root.  A singleton level is moved to `root` at entry. -/
def buildLevelFuel (m k r : Nat) : Nat → List Node → Option (Except String Node)
  | 0, _ => none
  | _ + 1, [n] => some (.ok n)
  | fuel + 1, nodes =>
    match buildLevelStep m k r nodes with
    | .error e => some (.error e)
    | .ok parents => buildLevelFuel m k r fuel parents

/-- `BloomManager::createPartitionedHierarchy` for one column: partition every
file into leaves (the C++ does this on a worker pool and concatenates in
completion order; the theorems below hold for any order, modelled here as file
order) and compose them level by level.  `none` if composition fails. -/
def buildColumn (hash : HashF) (storage : Storage) (m k N r fuel : Nat)
    (files : List Str) : Option Node :=
  let leaves := (files.map (fun f => processSSTFile hash m k N f (storage f))).flatten
  match buildLevelFuel m k r fuel leaves with
  | some (.ok root) => some root
  | _ => none

/-- Build one tree per column. -/
def buildForest (hash : HashF) (storage : Storage) (m k N r fuel : Nat)
    (filesPerCol : List (List Str)) : Option (List Node) :=
  filesPerCol.mapM (buildColumn hash storage m k N r fuel)

/-- A combination of one node per column plus the joint range
(`struct Combo`). -/
structure Combo where
  nodes : List Node
  rangeStart : Str
  rangeEnd : Str

/-- `DBManager::scanFileForKeysWithValue`: seek to `rangeStart` (if
non-empty), iterate while the key does not exceed a non-empty `rangeEnd`, and
collect the keys whose stored value equals `value`. -/
def scanFileForKeysWithValue (storage : Storage)
    (filename value rangeStart rangeEnd : Str) : List Str :=
  ((((storage filename).dropWhile
      (fun rc => decide (rangeStart ≠ []) && decide (rc.1 < rangeStart))).takeWhile
      (fun rc => decide (rangeEnd = []) || decide (rc.1 ≤ rangeEnd))).filter
      (fun rc => decide (rc.2 = value))).map Prod.fst

/-- `finalSstScanAndIntersect`: scan each column's leaf file over the combo
range clipped to the leaf range, and intersect the per-column key sets
(modelled as first set filtered by membership in all others, deduplicated as
an `unordered_set` would).  Second component: the `gSSTCheckCount` increment,
i.e. the number of leaf scans dispatched. -/
def finalSstScanAndIntersect (storage : Storage) (combo : Combo)
    (values : List Str) : List Str × Nat :=
  let sets := (combo.nodes.zip values).map (fun p =>
    scanFileForKeysWithValue storage p.1.filename p.2
      (max combo.rangeStart p.1.startKey) (min combo.rangeEnd p.1.endKey))
  match sets with
  | [] => ([], combo.nodes.length)
  | s0 :: rest =>
    (s0.dedup.filter (fun key => rest.all (fun s => decide (key ∈ s))),
      combo.nodes.length)

/-- Candidate sub-nodes of one combo entry: the children of an interior node,
or the (leaf) node itself. -/
def childrenOrSelf (nd : Node) : List Node :=
  if nd.filename = memoryTag then nd.children else [nd]

/-- The `consider` lambda of `dfsMultiColumn` applied to a candidate list:
drop candidates whose range misses the tightened window, keep the
filter-positive ones. -/
def considerList (hash : HashF) (v tS tE : Str) (cands : List Node) : List Node :=
  cands.filter (fun c =>
    !(decide (c.endKey < tS) || decide (tE < c.startKey)) && c.bloom.bexists hash v)

/-- Step 4 of `dfsMultiColumn`: per-column candidate options with progressive
range tightening; `none` when a column ends up with no surviving candidate or
the tightened window empties before the last column. -/
def buildOpts (hash : HashF) :
    List Node → List Str → Str → Str → Option (List (List Node))
  | [], _, _, _ => some []
  | _ :: _, [], _, _ => none
  | nd :: restN, v :: restV, tS, tE =>
    let cands := considerList hash v tS tE (childrenOrSelf nd)
    match cands with
    | [] => none
    | c0 :: _ =>
      match restN with
      | [] => some [cands]
      | _ :: _ =>
        let cMin := cands.foldl (fun a d => min a d.startKey) c0.startKey
        let cMax := cands.foldl (fun a d => max a d.endKey) c0.endKey
        let tS' := max tS cMin
        let tE' := min tE cMax
        if tE' < tS' then none
        else (buildOpts hash restN restV tS' tE').map (cands :: ·)

/-- Step 5 of `dfsMultiColumn`: enumerate one candidate per column, threading
the running range intersection and skipping picks that empty it.  Returns the
chosen node vectors with their final ranges. -/
def backtrack : List (List Node) → Str → Str → List (List Node × Str × Str)
  | [], s, e => [([], s, e)]
  | o :: rest, s, e =>
    (o.map (fun cand =>
      let ns := max s cand.startKey
      let ne := min e cand.endKey
      if ns ≤ ne then
        (backtrack rest ns ne).map (fun rc => (cand :: rc.1, rc.2.1, rc.2.2))
      else [])).flatten

/-- Concatenate recursive results and sum their scan counters (the C++
appends each recursion's matches to `globalfinalMatches`). -/
def combineOuts (l : List (List Str × Nat)) : List Str × Nat :=
  l.foldr (fun p acc => (p.1 ++ acc.1, p.2 + acc.2)) ([], 0)

theorem mem_childrenOrSelf_sizeOf_le {c nd : Node} (h : c ∈ childrenOrSelf nd) :
    sizeOf c ≤ sizeOf nd := by
  unfold childrenOrSelf at h
  split at h
  · exact le_of_lt (Node.sizeOf_lt_of_mem_children h)
  · simp only [List.mem_singleton] at h
    exact h ▸ le_refl _

theorem mem_childrenOrSelf_sizeOf_lt {c nd : Node} (htag : nd.filename = memoryTag)
    (h : c ∈ childrenOrSelf nd) : sizeOf c < sizeOf nd := by
  unfold childrenOrSelf at h
  rw [if_pos htag] at h
  exact Node.sizeOf_lt_of_mem_children h

theorem considerList_subset {hash : HashF} {v tS tE : Str} {l : List Node}
    {c : Node} (h : c ∈ considerList hash v tS tE l) : c ∈ l :=
  List.mem_of_mem_filter h

theorem buildOpts_forall₂ {hash : HashF} :
    ∀ {nodes : List Node} {values : List Str} {tS tE : Str}
      {opts : List (List Node)},
      buildOpts hash nodes values tS tE = some opts →
      List.Forall₂ (fun o nd => ∀ c ∈ o, c ∈ childrenOrSelf nd) opts nodes
  | [], _, _, _, opts, h => by
    simp only [buildOpts, Option.some_inj] at h
    subst h
    exact List.Forall₂.nil
  | _ :: _, [], _, _, opts, h => by
    simp only [buildOpts] at h
    exact absurd h (by simp)
  | nd :: restN, v :: restV, tS, tE, opts, h => by
    simp only [buildOpts] at h
    split at h
    · exact absurd h (by simp)
    · split at h
      · simp only [Option.some_inj] at h
        subst h
        refine List.Forall₂.cons ?_ List.Forall₂.nil
        intro c hc
        exact considerList_subset hc
      · split at h
        · exact absurd h (by simp)
        · simp only [Option.map_eq_some'] at h
          obtain ⟨opts', hrec, heq⟩ := h
          subst heq
          refine List.Forall₂.cons ?_ (buildOpts_forall₂ hrec)
          intro c hc
          exact considerList_subset hc

theorem backtrack_mem_forall₂ :
    ∀ {opts : List (List Node)} {s e : Str} {x : List Node × Str × Str},
      x ∈ backtrack opts s e → List.Forall₂ (· ∈ ·) x.1 opts
  | [], s, e, x, h => by
    simp only [backtrack, List.mem_singleton] at h
    subst h
    exact List.Forall₂.nil
  | o :: rest, s, e, x, h => by
    simp only [backtrack, List.mem_flatten, List.mem_map] at h
    obtain ⟨l, ⟨cand, hcand, hl⟩, hx⟩ := h
    subst hl
    split at hx
    · simp only [List.mem_map] at hx
      obtain ⟨rc, hrc, hx⟩ := hx
      subst hx
      exact List.Forall₂.cons hcand (backtrack_mem_forall₂ hrc)
    · exact absurd hx (List.not_mem_nil x)

theorem sum_sizeOf_le_of_forall₂ {xs ys : List Node}
    (h : List.Forall₂ (fun c nd => c ∈ childrenOrSelf nd) xs ys) :
    (xs.map sizeOf).sum ≤ (ys.map sizeOf).sum := by
  induction h with
  | nil => exact le_refl _
  | cons hcd _ ih =>
    simp only [List.map_cons, List.sum_cons]
    exact Nat.add_le_add (mem_childrenOrSelf_sizeOf_le hcd) ih

theorem sum_sizeOf_lt_of_forall₂ {xs ys : List Node}
    (h : List.Forall₂ (fun c nd => c ∈ childrenOrSelf nd) xs ys)
    (hex : ∃ nd ∈ ys, nd.filename = memoryTag) :
    (xs.map sizeOf).sum < (ys.map sizeOf).sum := by
  induction h with
  | nil =>
    obtain ⟨nd, hnd, _⟩ := hex
    exact absurd hnd (List.not_mem_nil nd)
  | @cons c nd xs' ys' hcd htl ih =>
    simp only [List.map_cons, List.sum_cons]
    obtain ⟨nd', hnd', htag⟩ := hex
    rcases List.mem_cons.mp hnd' with heq | hmem
    · subst heq
      exact Nat.add_lt_add_of_lt_of_le (mem_childrenOrSelf_sizeOf_lt htag hcd)
        (sum_sizeOf_le_of_forall₂ htl)
    · exact Nat.add_lt_add_of_le_of_lt (mem_childrenOrSelf_sizeOf_le hcd)
        (ih ⟨nd', hmem, htag⟩)

theorem forall₂_mem_childrenOrSelf {xs : List Node} {opts : List (List Node)}
    {nodes : List Node} (h1 : List.Forall₂ (· ∈ ·) xs opts)
    (h2 : List.Forall₂ (fun o nd => ∀ c ∈ o, c ∈ childrenOrSelf nd) opts nodes) :
    List.Forall₂ (fun c nd => c ∈ childrenOrSelf nd) xs nodes := by
  induction h2 generalizing xs with
  | nil =>
    cases h1
    exact List.Forall₂.nil
  | cons hcd _ ih =>
    cases h1 with
    | cons hx hxs => exact List.Forall₂.cons (hcd _ hx) (ih hxs)

theorem backtrack_measure_lt {hash : HashF} {nodes : List Node}
    {values : List Str} {tS tE s e : Str} {opts : List (List Node)}
    (hb : buildOpts hash nodes values tS tE = some opts)
    (hex : ∃ nd ∈ nodes, nd.filename = memoryTag) :
    ∀ x ∈ backtrack opts s e, ((x.1.map sizeOf).sum < (nodes.map sizeOf).sum) :=
  fun _ hx =>
    sum_sizeOf_lt_of_forall₂
      (forall₂_mem_childrenOrSelf (backtrack_mem_forall₂ hx) (buildOpts_forall₂ hb))
      hex

/-- `dfsMultiColumn` (recursive calls only; the `isInitialCall` root check
lives in `multiColumnQueryHierarchical` below, which performs it before the
first call exactly as the C++ does before its range check).  Returns the
appended matches of all leaf combos reached, plus the total `gSSTCheckCount`
increment. -/
def dfsMC (hash : HashF) (storage : Storage) (values : List Str)
    (combo : Combo) : List Str × Nat :=
  if combo.rangeEnd < combo.rangeStart then ([], 0)
  else if hl : combo.nodes.all (fun nd => nd.filename ≠ memoryTag) then
    finalSstScanAndIntersect storage combo values
  else
    match hb : buildOpts hash combo.nodes values combo.rangeStart combo.rangeEnd with
    | none => ([], 0)
    | some opts =>
      combineOuts (((backtrack opts combo.rangeStart combo.rangeEnd).attach).map
        (fun x => dfsMC hash storage values ⟨x.1.1, x.1.2.1, x.1.2.2⟩))
termination_by (combo.nodes.map sizeOf).sum
decreasing_by
  refine backtrack_measure_lt hb ?_ x.1 x.2
  simp only [List.all_eq_true, decide_not, not_forall] at hl
  obtain ⟨nd, hnd, htag⟩ := hl
  refine ⟨nd, hnd, ?_⟩
  simpa using htag

/-- The `isInitialCall` loop of `dfsMultiColumn`: probe each root's filter in
column order, stopping at the first miss.  Returns the number of probes
performed and whether all probed roots passed. -/
def rootCheck (hash : HashF) : List Node → List Str → Nat × Bool
  | [], _ => (0, true)
  | _ :: _, [] => (0, true)
  | nd :: restN, v :: restV =>
    if nd.bloom.bexists hash v then
      let p := rootCheck hash restN restV
      (p.1 + 1, p.2)
    else (1, false)

/-- `multiColumnQueryHierarchical`: shape check, seed range from the global
bounds (empty ⇒ tree 0's root range) intersected with all root ranges, root
filter probes, then the DFS.  Result: (row keys, number of root probes
performed at initialisation, `gSSTCheckCount`). -/
def multiColumnQueryHierarchical (hash : HashF) (storage : Storage)
    (roots : List Node) (values : List Str) (globalStart globalEnd : Str) :
    List Str × Nat × Nat :=
  match roots with
  | [] => ([], 0, 0)
  | r0 :: _ =>
    if roots.length ≠ values.length then ([], 0, 0)
    else
      let s := roots.foldl (fun a r => max a r.startKey)
        (if globalStart = [] then r0.startKey else globalStart)
      let e := roots.foldl (fun a r => min a r.endKey)
        (if globalEnd = [] then r0.endKey else globalEnd)
      let p := rootCheck hash roots values
      if p.2 then
        let out := dfsMC hash storage values ⟨roots, s, e⟩
        (out.1, p.1, out.2)
      else ([], p.1, 0)

namespace BloomFilter

theorem getD_set_true_self {arr : List Bool} {p : Nat} (h : p < arr.length) :
    (arr.set p true).getD p false = true := by
  simp [List.getD_eq_getElem?_getD, List.getElem?_set_self h]

theorem getD_set_true_mono {arr : List Bool} {p j : Nat}
    (h : arr.getD j false = true) : (arr.set p true).getD j false = true := by
  by_cases hpj : p = j
  · subst hpj
    by_cases hp : p < arr.length
    · exact getD_set_true_self hp
    · simp only [List.getD_eq_getElem?_getD] at h
      rw [List.getElem?_eq_none (le_of_not_lt hp)] at h
      simp at h
  · simp only [List.getD_eq_getElem?_getD] at h ⊢
    rw [List.getElem?_set_ne hpj]
    exact h

theorem foldl_set_length (g : Nat → Nat) :
    ∀ (l : List Nat) (arr : List Bool),
      (l.foldl (fun a i => a.set (g i) true) arr).length = arr.length
  | [], _ => rfl
  | i :: rest, arr => by
    rw [List.foldl_cons, foldl_set_length g rest, List.length_set]

theorem foldl_set_getD_mono (g : Nat → Nat) :
    ∀ (l : List Nat) (arr : List Bool) (j : Nat),
      arr.getD j false = true →
      (l.foldl (fun a i => a.set (g i) true) arr).getD j false = true
  | [], _, _, h => h
  | i :: rest, arr, j, h => by
    rw [List.foldl_cons]
    exact foldl_set_getD_mono g rest _ j (getD_set_true_mono h)

theorem foldl_set_getD_self (g : Nat → Nat) :
    ∀ (l : List Nat) (arr : List Bool) (i : Nat), i ∈ l → g i < arr.length →
      (l.foldl (fun a i => a.set (g i) true) arr).getD (g i) false = true
  | [], _, _, hmem, _ => absurd hmem (List.not_mem_nil _)
  | i' :: rest, arr, i, hmem, hlt => by
    rw [List.foldl_cons]
    rcases List.mem_cons.mp hmem with heq | hmem'
    · subst heq
      exact foldl_set_getD_mono g rest _ _ (getD_set_true_self hlt)
    · exact foldl_set_getD_self g rest _ i hmem' (by rw [List.length_set]; exact hlt)

@[simp] theorem insert_numHashFunctions (hash : HashF) (bf : BloomFilter) (v : Str) :
    (bf.insert hash v).numHashFunctions = bf.numHashFunctions := rfl

@[simp] theorem insert_bitArraySize (hash : HashF) (bf : BloomFilter) (v : Str) :
    (bf.insert hash v).bitArraySize = bf.bitArraySize := rfl

theorem insert_length (hash : HashF) (bf : BloomFilter) (v : Str) :
    (bf.insert hash v).bitArray.length = bf.bitArray.length :=
  foldl_set_length _ _ _

theorem insert_getD_mono {hash : HashF} {bf : BloomFilter} {v : Str} {j : Nat}
    (h : bf.bitArray.getD j false = true) :
    (bf.insert hash v).bitArray.getD j false = true :=
  foldl_set_getD_mono _ _ _ _ h

/-- All probed bits are set right after inserting `v` (well-formed filter,
`m ≥ 1`). -/
theorem insert_probe_set {hash : HashF} {bf : BloomFilter} {v : Str} {i : Nat}
    (hw : bf.bitArray.length = bf.bitArraySize) (hm : 0 < bf.bitArraySize)
    (hi : i < bf.numHashFunctions) :
    (bf.insert hash v).bitArray.getD (bf.hashIdx hash v i) false = true :=
  foldl_set_getD_self _ _ _ _ (List.mem_range.mpr hi)
    (hw ▸ Nat.mod_lt _ hm)

/-- `exists` is monotone under growing the bit set (same geometry). -/
theorem bexists_mono {hash : HashF} {bf bf' : BloomFilter} {v : Str}
    (hm : bf'.bitArraySize = bf.bitArraySize)
    (hk : bf'.numHashFunctions = bf.numHashFunctions)
    (hbits : ∀ j, bf.bitArray.getD j false = true → bf'.bitArray.getD j false = true)
    (h : bf.bexists hash v = true) : bf'.bexists hash v = true := by
  simp only [bexists, List.all_eq_true, List.mem_range] at *
  intro i hi
  rw [hk] at hi
  have := h i hi
  unfold hashIdx at *
  rw [hm]
  exact hbits _ this

/-- No false negatives: a freshly inserted value tests positive. -/
theorem bexists_insert_self {hash : HashF} {bf : BloomFilter} {v : Str}
    (hw : bf.bitArray.length = bf.bitArraySize) (hm : 0 < bf.bitArraySize) :
    (bf.insert hash v).bexists hash v = true := by
  simp only [bexists, List.all_eq_true, List.mem_range]
  intro i hi
  have : (bf.insert hash v).hashIdx hash v i = bf.hashIdx hash v i := rfl
  rw [this]
  exact insert_probe_set hw hm hi

@[simp] theorem insertList_numHashFunctions (hash : HashF) (bf : BloomFilter)
    (vs : List Str) :
    (bf.insertList hash vs).numHashFunctions = bf.numHashFunctions := by
  induction vs generalizing bf with
  | nil => rfl
  | cons v rest ih =>
    rw [show bf.insertList hash (v :: rest) =
      (bf.insert hash v).insertList hash rest from rfl, ih]
    rfl

@[simp] theorem insertList_bitArraySize (hash : HashF) (bf : BloomFilter)
    (vs : List Str) :
    (bf.insertList hash vs).bitArraySize = bf.bitArraySize := by
  induction vs generalizing bf with
  | nil => rfl
  | cons v rest ih =>
    rw [show bf.insertList hash (v :: rest) =
      (bf.insert hash v).insertList hash rest from rfl, ih]
    rfl

theorem insertList_length (hash : HashF) (bf : BloomFilter) (vs : List Str) :
    (bf.insertList hash vs).bitArray.length = bf.bitArray.length := by
  induction vs generalizing bf with
  | nil => rfl
  | cons v rest ih =>
    simp only [insertList, List.foldl_cons]
    rw [show (rest.foldl (fun b v => b.insert hash v) (bf.insert hash v)) =
      (bf.insert hash v).insertList hash rest from rfl, ih, insert_length]

theorem insertList_getD_mono {hash : HashF} {bf : BloomFilter} {vs : List Str}
    {j : Nat} (h : bf.bitArray.getD j false = true) :
    (bf.insertList hash vs).bitArray.getD j false = true := by
  induction vs generalizing bf with
  | nil => exact h
  | cons v rest ih =>
    simp only [insertList, List.foldl_cons]
    exact ih (insert_getD_mono h)

/-- A value inserted anywhere in the list tests positive afterwards. -/
theorem bexists_insertList_of_mem {hash : HashF} {bf : BloomFilter}
    {vs : List Str} {v : Str} (hw : bf.bitArray.length = bf.bitArraySize)
    (hm : 0 < bf.bitArraySize) (hv : v ∈ vs) :
    (bf.insertList hash vs).bexists hash v = true := by
  induction vs generalizing bf with
  | nil => exact absurd hv (List.not_mem_nil v)
  | cons v' rest ih =>
    rw [show bf.insertList hash (v' :: rest) =
      (bf.insert hash v').insertList hash rest from rfl]
    rcases List.mem_cons.mp hv with heq | hmem
    · subst heq
      refine @bexists_mono _ (bf.insert hash v) _ _
        (insertList_bitArraySize hash (bf.insert hash v) rest)
        (insertList_numHashFunctions hash (bf.insert hash v) rest)
        (fun j hj => insertList_getD_mono hj) (bexists_insert_self hw hm)
    · exact ih (by rw [insert_length, insert_bitArraySize]; exact hw)
        (by rw [insert_bitArraySize]; exact hm) hmem

end BloomFilter

namespace BloomFilter

theorem zipWith_or_getD :
    ∀ {a b : List Bool}, a.length = b.length → ∀ j,
      (List.zipWith (· || ·) a b).getD j false =
        (a.getD j false || b.getD j false)
  | [], [], _, j => by simp
  | [], _ :: _, h, j => by simp at h
  | _ :: _, [], h, j => by simp at h
  | x :: xs, y :: ys, h, j => by
    cases j with
    | zero => simp
    | succ j =>
      simp only [List.zipWith_cons_cons, List.getD_cons_succ]
      exact zipWith_or_getD (by simpa using h) j

theorem merge_ok_of_length_eq {a b : BloomFilter}
    (h : a.bitArray.length = b.bitArray.length) :
    a.merge b = .ok { a with bitArray := a.bitArray.zipWith (· || ·) b.bitArray } := by
  unfold merge
  rw [if_neg (by simp [h])]

end BloomFilter

/-- Claim C6 — `BloomFilter::merge` fails with the size-mismatch error exactly
when the two bit arrays have different lengths (throwing before any mutation,
so the receiver is untouched, which the `Except` model renders by producing no
filter at all); on equal lengths the result keeps the receiver's geometry and
each bit is the OR of the two operands' bits; consequently a merge of two
filters of the same geometry answers `exists = true` for every value
previously inserted into either operand. -/
theorem bloom_merge_spec :
    (∀ a b : BloomFilter, a.bitArray.length ≠ b.bitArray.length ↔
      a.merge b = .error "BloomFilter size mismatch during merge")
    ∧ (∀ a b c : BloomFilter, a.merge b = .ok c →
      c.numHashFunctions = a.numHashFunctions ∧ c.bitArraySize = a.bitArraySize ∧
      c.bitArray.length = a.bitArray.length ∧
      ∀ j, c.bitArray.getD j false =
        (a.bitArray.getD j false || b.bitArray.getD j false))
    ∧ (∀ (hash : HashF) (m k : Nat) (vsA vsB : List Str), 0 < m →
      ∃ c, ((BloomFilter.new m k).insertList hash vsA).merge
          ((BloomFilter.new m k).insertList hash vsB) = .ok c ∧
        ∀ v ∈ vsA ++ vsB, c.bexists hash v = true) := by
  have hok : ∀ a b c : BloomFilter, a.merge b = .ok c →
      a.bitArray.length = b.bitArray.length ∧
      c = { a with bitArray := a.bitArray.zipWith (· || ·) b.bitArray } := by
    intro a b c h
    unfold BloomFilter.merge at h
    split at h
    · exact absurd h (by simp)
    · rename_i hlen
      simp only [ne_eq, not_not] at hlen
      exact ⟨hlen, by injection h with h; exact h.symm⟩
  refine ⟨?_, ?_, ?_⟩
  · intro a b
    constructor
    · intro h
      unfold BloomFilter.merge
      rw [if_pos (by simpa using h)]
    · intro h hlen
      rw [BloomFilter.merge_ok_of_length_eq hlen] at h
      exact absurd h (by simp)
  · intro a b c h
    obtain ⟨hlen, hc⟩ := hok a b c h
    subst hc
    refine ⟨rfl, rfl, by simp [List.length_zipWith, hlen], ?_⟩
    exact BloomFilter.zipWith_or_getD hlen
  · intro hash m k vsA vsB hm
    set a := (BloomFilter.new m k).insertList hash vsA with ha
    set b := (BloomFilter.new m k).insertList hash vsB with hb
    have hwnew : (BloomFilter.new m k).bitArray.length =
        (BloomFilter.new m k).bitArraySize := by
      simp [BloomFilter.new]
    have hla : a.bitArray.length = m := by
      rw [ha, BloomFilter.insertList_length]; simp [BloomFilter.new]
    have hlb : b.bitArray.length = m := by
      rw [hb, BloomFilter.insertList_length]; simp [BloomFilter.new]
    have hsa : a.bitArraySize = m := by rw [ha, BloomFilter.insertList_bitArraySize]; rfl
    have hsb : b.bitArraySize = m := by rw [hb, BloomFilter.insertList_bitArraySize]; rfl
    have hka : a.numHashFunctions = k := by
      rw [ha, BloomFilter.insertList_numHashFunctions]; rfl
    have hkb : b.numHashFunctions = k := by
      rw [hb, BloomFilter.insertList_numHashFunctions]; rfl
    refine ⟨_, BloomFilter.merge_ok_of_length_eq (hla.trans hlb.symm), ?_⟩
    intro v hv
    have hbits : ∀ j, (List.zipWith (· || ·) a.bitArray b.bitArray).getD j false =
        (a.bitArray.getD j false || b.bitArray.getD j false) :=
      BloomFilter.zipWith_or_getD (hla.trans hlb.symm)
    rcases List.mem_append.mp hv with hva | hvb
    · refine @BloomFilter.bexists_mono _ a _ _ (by simpa using hsa.symm ▸ hsa)
        rfl (fun j hj => by rw [hbits j, hj, Bool.true_or]) ?_
      exact BloomFilter.bexists_insertList_of_mem hwnew (by simpa [BloomFilter.new] using hm) hva
    · refine @BloomFilter.bexists_mono _ b _ _ (by simp [hsa, hsb]) (by simp [hka, hkb])
        (fun j hj => by rw [hbits j, hj, Bool.or_true]) ?_
      exact BloomFilter.bexists_insertList_of_mem hwnew (by simpa [BloomFilter.new] using hm) hvb

/-- Witness for C6: the merge of two single-insert filters succeeds and
answers positively for both inserted values. -/
theorem bloom_merge_spec_witness :
    ∃ c, ((BloomFilter.new 8 2).insertList (fun v i => v.length + i) [str "a"]).merge
        ((BloomFilter.new 8 2).insertList (fun v i => v.length + i) [str "b"]) = .ok c ∧
      ∀ v ∈ [str "a"] ++ [str "b"],
        c.bexists (fun v i => v.length + i) v = true :=
  bloom_merge_spec.2.2 (fun v i => v.length + i) 8 2 [str "a"] [str "b"] (by decide)

theorem natToLEBytes_length : ∀ (w v : Nat), (natToLEBytes w v).length = w
  | 0, _ => rfl
  | w + 1, v => by
    simp only [natToLEBytes, List.length_cons, natToLEBytes_length w]

theorem leBytesToNat_natToLEBytes : ∀ (w v : Nat),
    leBytesToNat (natToLEBytes w v) = v % 256 ^ w
  | 0, v => by simp [natToLEBytes, leBytesToNat, Nat.mod_one]
  | w + 1, v => by
    have : leBytesToNat (natToLEBytes (w + 1) v) =
        v % 256 + 256 * leBytesToNat (natToLEBytes w (v / 256)) := by
      simp [natToLEBytes, leBytesToNat]
    rw [this, leBytesToNat_natToLEBytes w, pow_succ', Nat.mod_mul]

theorem bitsVal_testBit : ∀ (bs : List Bool) (t : Nat), t < bs.length →
    (bitsVal bs).testBit t = bs.getD t false
  | [], _, ht => by simp at ht
  | b :: rest, 0, _ => by
    rw [Nat.testBit_zero, List.getD_cons_zero]
    cases b <;> simp [bitsVal] <;> omega
  | b :: rest, t + 1, ht => by
    rw [Nat.testBit_succ, List.getD_cons_succ]
    have hdiv : ((if b then 1 else 0) + 2 * bitsVal rest) / 2 = bitsVal rest := by
      cases b <;> simp <;> omega
    rw [show bitsVal (b :: rest) = (if b then 1 else 0) + 2 * bitsVal rest from rfl,
      hdiv]
    exact bitsVal_testBit rest t (by simpa using ht)

theorem byteOfBits_testBit (bit : Nat → Bool) (j t : Nat) (ht : t < 8) :
    (byteOfBits bit j).testBit t = bit (8 * j + t) := by
  unfold byteOfBits
  rw [bitsVal_testBit _ t (by simpa using ht)]
  simp only [List.getD_eq_getElem?_getD, List.getElem?_map, List.getElem?_range ht]
  rfl

/-- Claim C7 — save/load round trip: for every well-formed bloom filter (bit
array of the declared length `m`, `m` within the 8-byte field, `k` within the
non-negative `int` range), loading the saved byte stream restores exactly the
same `m`, `k`, and bit values. -/
theorem saveToFile_loadFromFile (bf : BloomFilter)
    (hw : bf.bitArray.length = bf.bitArraySize)
    (hm : bf.bitArraySize < 2 ^ 64) (hk : bf.numHashFunctions < 2 ^ 31) :
    BloomFilter.loadFromFile bf.saveToFile = bf := by
  obtain ⟨arr, k, m⟩ := bf
  simp only [BloomFilter.bitArray] at hw
  simp only [BloomFilter.bitArraySize] at hm hw
  simp only [BloomFilter.numHashFunctions] at hk
  unfold BloomFilter.saveToFile BloomFilter.loadFromFile
  simp only [List.append_assoc]
  have htake8 : (natToLEBytes 8 m ++ (natToLEBytes 4 k ++
      (List.range ((m + 7) / 8)).map
        (byteOfBits (fun i => i < m && arr.getD i false)))).take 8 =
      natToLEBytes 8 m := List.take_left' (natToLEBytes_length 8 m)
  have hdrop8 : (natToLEBytes 8 m ++ (natToLEBytes 4 k ++
      (List.range ((m + 7) / 8)).map
        (byteOfBits (fun i => i < m && arr.getD i false)))).drop 8 =
      natToLEBytes 4 k ++ (List.range ((m + 7) / 8)).map
        (byteOfBits (fun i => i < m && arr.getD i false)) :=
    List.drop_left' (natToLEBytes_length 8 m)
  have hm' : leBytesToNat ((natToLEBytes 8 m ++ (natToLEBytes 4 k ++
      (List.range ((m + 7) / 8)).map
        (byteOfBits (fun i => i < m && arr.getD i false)))).take 8) = m := by
    rw [htake8, leBytesToNat_natToLEBytes]
    exact Nat.mod_eq_of_lt (lt_of_lt_of_le hm (by norm_num))
  have hk' : leBytesToNat (((natToLEBytes 8 m ++ (natToLEBytes 4 k ++
      (List.range ((m + 7) / 8)).map
        (byteOfBits (fun i => i < m && arr.getD i false)))).drop 8).take 4) = k := by
    rw [hdrop8, List.take_left' (natToLEBytes_length 4 k), leBytesToNat_natToLEBytes]
    exact Nat.mod_eq_of_lt (lt_of_lt_of_le hk (by norm_num))
  have hdrop12 : (natToLEBytes 8 m ++ (natToLEBytes 4 k ++
      (List.range ((m + 7) / 8)).map
        (byteOfBits (fun i => i < m && arr.getD i false)))).drop 12 =
      (List.range ((m + 7) / 8)).map
        (byteOfBits (fun i => i < m && arr.getD i false)) := by
    rw [← List.append_assoc]
    refine List.drop_left' ?_
    rw [List.length_append, natToLEBytes_length, natToLEBytes_length]
  rw [hm', hk', hdrop12]
  simp only [BloomFilter.mk.injEq]
  refine ⟨?_, trivial, trivial⟩
  refine List.ext_getElem (by simp [hw]) ?_
  intro i h1 h2
  simp only [List.length_map, List.length_range] at h1
  rw [List.getElem_map, List.getElem_range]
  have hdivlt : i / 8 < (m + 7) / 8 := by omega
  have hpay : (((List.range ((m + 7) / 8)).map
      (byteOfBits (fun i => i < m && arr.getD i false))).getD (i / 8) 0) =
      byteOfBits (fun i => i < m && arr.getD i false) (i / 8) := by
    rw [List.getD_eq_getElem _ _ (by simp [hdivlt]), List.getElem_map,
      List.getElem_range]
  rw [hpay, byteOfBits_testBit _ _ _ (Nat.mod_lt i (by norm_num)),
    Nat.div_add_mod i 8]
  rw [decide_eq_true h1, Bool.true_and]
  exact List.getD_eq_getElem arr false (by omega)

/-- Witness for C7 at a concrete filter. -/
theorem saveToFile_loadFromFile_witness :
    BloomFilter.loadFromFile (BloomFilter.mk [true, false, true] 2 3).saveToFile =
      BloomFilter.mk [true, false, true] 2 3 :=
  saveToFile_loadFromFile _ (by decide) (by norm_num) (by norm_num)

/-- Claim C9 evidence — `loadFromFile` does **not** reject a sidecar file
whose payload is shorter than the header demands: a header declaring
`m = 16, k = 2` followed by a single payload byte `0xFF` (instead of the two
bytes `⌈16/8⌉` requires) is loaded without complaint, the missing bits
silently reading as zero.  The spec (§6) requires readers to reject such a
file. -/
theorem loadFromFile_accepts_short_payload :
    BloomFilter.loadFromFile (natToLEBytes 8 16 ++ natToLEBytes 4 2 ++ [255]) =
      { bitArray := List.replicate 8 true ++ List.replicate 8 false
        numHashFunctions := 2
        bitArraySize := 16 } := by decide

theorem chunksTake_flatten (N : Nat) : ∀ (l : List α), (chunksTake N l).flatten = l
  | [] => by simp
  | x :: rest => by
    rw [chunksTake_cons]
    simp only [List.flatten_cons]
    rw [chunksTake_flatten N (rest.drop (N - 1))]
    simp [List.take_append_drop]
termination_by l => l.length
decreasing_by simp [List.length_drop]; omega

theorem chunksTake_singleton {N : Nat} {l : List α} (hne : l ≠ [])
    (hlt : l.length < N) : chunksTake N l = [l] := by
  match l with
  | [] => exact absurd rfl hne
  | x :: rest =>
    rw [chunksTake_cons]
    simp only [List.length_cons] at hlt
    rw [List.take_of_length_le (by omega), List.drop_eq_nil_of_le (by omega)]
    simp

theorem chunksTake_append_full {N : Nat} {c rest : List α} (hlen : c.length = N)
    (hne : c ≠ []) : chunksTake N (c ++ rest) = c :: chunksTake N rest := by
  match c with
  | [] => exact absurd rfl hne
  | x :: cs =>
    simp only [List.cons_append]
    rw [chunksTake_cons]
    simp only [List.length_cons] at hlen
    rw [List.take_append_of_le_length (by omega),
      List.take_of_length_le (by omega),
      List.drop_append_of_le_length (by omega),
      List.drop_eq_nil_of_le (by omega), List.nil_append]

theorem insertList_concat (hash : HashF) (bf : BloomFilter) (vs : List Str)
    (v : Str) : bf.insertList hash (vs ++ [v]) = (bf.insertList hash vs).insert hash v := by
  unfold BloomFilter.insertList
  rw [List.foldl_append]
  rfl

theorem processGo_render (hash : HashF) (m k N : Nat) (file : Str) (hN : 1 ≤ N) :
    ∀ (records p : List (Str × Str)) (startK lastK : Str),
      p.length < N →
      (p ≠ [] → startK = (p.map Prod.fst).headD []) →
      (p ≠ [] → lastK = (p.map Prod.fst).getLastD []) →
      processGo hash m k N file records p.length
          ((BloomFilter.new m k).insertList hash (p.map Prod.snd))
          startK p.isEmpty lastK =
        (chunksTake N (p ++ records)).map (mkLeaf hash m k file)
  | [], p, startK, lastK, hlen, hsk, hlk => by
    rcases hp : p with _ | ⟨x, rest⟩
    · simp [processGo, chunksTake, chunksTakeAux]
    · rw [← hp]
      have hpne : p ≠ [] := by rw [hp]; simp
      have h0 : 0 < p.length := by rw [hp]; simp
      simp only [processGo, List.append_nil, if_pos h0]
      rw [chunksTake_singleton hpne hlen]
      simp only [List.map_cons, List.map_nil, mkLeaf]
      rw [hsk hpne, hlk hpne]
  | (key, value) :: rest, p, startK, lastK, hlen, hsk, hlk => by
    have hstep : processGo hash m k N file ((key, value) :: rest) p.length
        ((BloomFilter.new m k).insertList hash (p.map Prod.snd))
        startK p.isEmpty lastK =
        (let startK' := if p.isEmpty then key else startK
         let bloom' := ((BloomFilter.new m k).insertList hash (p.map Prod.snd)).insert hash value
         if N ≤ p.length + 1 then
           Node.mk bloom' file startK' key [] ::
             processGo hash m k N file rest 0 (BloomFilter.new m k) startK' true key
         else
           processGo hash m k N file rest (p.length + 1) bloom' startK' false key) := by
      rw [processGo]
    rw [hstep]
    have happ : p ++ (key, value) :: rest = (p ++ [(key, value)]) ++ rest := by
      simp
    have hsk' : (p ++ [(key, value)]) ≠ [] →
        (if p.isEmpty then key else startK) =
          ((p ++ [(key, value)]).map Prod.fst).headD [] := by
      intro _
      rcases hp : p with _ | ⟨x, r⟩
      · simp
      · have : ¬ (x :: r).isEmpty = true := by simp
        rw [if_neg (by rw [hp] at *; simpa using this)]
        rw [hsk (by rw [hp]; simp), hp]
        simp
    have hlk' : (p ++ [(key, value)]) ≠ [] →
        key = ((p ++ [(key, value)]).map Prod.fst).getLastD [] := by
      intro _
      rw [List.map_append]
      simp [List.getLastD_concat]
    have hbloom' : ((BloomFilter.new m k).insertList hash (p.map Prod.snd)).insert hash value =
        (BloomFilter.new m k).insertList hash ((p ++ [(key, value)]).map Prod.snd) := by
      rw [List.map_append]
      simp only [List.map_cons, List.map_nil]
      rw [insertList_concat]
    by_cases hfull : N ≤ p.length + 1
    · simp only [if_pos hfull]
      have hplen : (p ++ [(key, value)]).length = N := by
        simp only [List.length_append, List.length_cons, List.length_nil]
        omega
      rw [happ, chunksTake_append_full hplen (by simp), List.map_cons]
      congr 1
      · unfold mkLeaf
        rw [hbloom']
        congr 1
        · exact hsk' (by simp)
        · exact hlk' (by simp)
      · have hrec := processGo_render hash m k N file hN rest []
          (if p.isEmpty then key else startK) key
          (show ([] : List (Str × Str)).length < N by simp; omega)
          (fun h => absurd rfl h) (fun h => absurd rfl h)
        simpa using hrec
    · simp only [if_neg hfull]
      have hlen' : (p ++ [(key, value)]).length < N := by
        simp only [List.length_append, List.length_cons, List.length_nil]
        omega
      have := processGo_render hash m k N file hN rest (p ++ [(key, value)])
        (if p.isEmpty then key else startK) key hlen' hsk' hlk'
      rw [happ]
      rw [← this, hbloom']
      have hcnt : (p ++ [(key, value)]).length = p.length + 1 := by simp
      have hemp : (p ++ [(key, value)]).isEmpty = false := by simp
      rw [hcnt, hemp]

/-- Claim C4 — the per-file partitioner emits exactly one leaf per
consecutive run of `N` records (final partial run included): the emitted
leaves are the runs in order, each leaf's filter holds the run's values and
its `[startKey, endKey]` are the run's first and last keys; the runs
partition the record list, so the leaf record counts sum to the file's record
count. -/
theorem processSSTFile_spec (hash : HashF) (m k N : Nat) (file : Str)
    (records : List (Str × Str)) (hN : 1 ≤ N) :
    processSSTFile hash m k N file records =
      (chunksTake N records).map (mkLeaf hash m k file)
    ∧ ((chunksTake N records).map List.length).sum = records.length := by
  constructor
  · have := processGo_render hash m k N file hN records []
      [] [] (by simp; omega) (fun h => absurd rfl h) (fun h => absurd rfl h)
    simpa [processSSTFile] using this
  · rw [← List.length_flatten, chunksTake_flatten]

/-- Witness for C4: three records with `N = 2` produce a full leaf and a
partial one. -/
theorem processSSTFile_spec_witness :
    (processSSTFile (fun v i => v.length + i) 8 2 2 (str "f")
        [(str "a", str "x"), (str "b", str "y"), (str "c", str "z")] =
      (chunksTake 2 [(str "a", str "x"), (str "b", str "y"), (str "c", str "z")]).map
        (mkLeaf (fun v i => v.length + i) 8 2 (str "f"))
    ∧ ((chunksTake 2 [(str "a", str "x"), (str "b", str "y"),
        (str "c", str "z")]).map List.length).sum = 3) :=
  processSSTFile_spec (fun v i => v.length + i) 8 2 2 (str "f")
    [(str "a", str "x"), (str "b", str "y"), (str "c", str "z")] (by norm_num)

namespace Node

theorem allNodes_eq (n : Node) :
    n.allNodes = n :: (n.children.map allNodes).flatten := by
  rw [allNodes]
  rw [List.attach_map_val n.children allNodes]

theorem self_mem_allNodes (n : Node) : n ∈ n.allNodes := by
  rw [allNodes_eq]
  exact List.mem_cons_self n _

theorem mem_allNodes_iff {d n : Node} :
    d ∈ n.allNodes ↔ d = n ∨ ∃ c ∈ n.children, d ∈ c.allNodes := by
  rw [allNodes_eq]
  simp only [List.mem_cons, List.mem_flatten, List.mem_map]
  constructor
  · rintro (h | ⟨l, ⟨c, hc, hl⟩, hd⟩)
    · exact Or.inl h
    · exact Or.inr ⟨c, hc, hl ▸ hd⟩
  · rintro (h | ⟨c, hc, hd⟩)
    · exact Or.inl h
    · exact Or.inr ⟨c.allNodes, ⟨c, hc, rfl⟩, hd⟩

theorem mem_allNodes_of_child {c n d : Node} (hc : c ∈ n.children)
    (hd : d ∈ c.allNodes) : d ∈ n.allNodes :=
  mem_allNodes_iff.mpr (Or.inr ⟨c, hc, hd⟩)

theorem allNodes_trans : ∀ {n e d : Node}, d ∈ e.allNodes → e ∈ n.allNodes →
    d ∈ n.allNodes := by
  intro n
  induction n using Node.allNodes.induct with
  | _ n ih =>
    intro e d hd he
    rcases mem_allNodes_iff.mp he with heq | ⟨c, hc, he'⟩
    · exact heq ▸ hd
    · exact mem_allNodes_of_child hc (ih ⟨c, hc⟩ hd he')

end Node

/-- Pointwise OR of bit arrays, seeded with `m` zero bits — the net effect of
`BloomTree::buildLevel`'s parent-filter merge loop. -/
def orFold (m : Nat) (ls : List (List Bool)) : List Bool :=
  ls.foldl (List.zipWith (· || ·)) (List.replicate m false)

theorem foldl_zipWith_or_length :
    ∀ (ls : List (List Bool)) (acc : List Bool), acc.length = m →
      (∀ l ∈ ls, l.length = m) →
      (ls.foldl (List.zipWith (· || ·)) acc).length = m
  | [], acc, ha, _ => ha
  | l :: rest, acc, ha, hl => by
    rw [List.foldl_cons]
    exact foldl_zipWith_or_length rest _
      (by rw [List.length_zipWith, ha, hl l (List.mem_cons_self l rest)]; simp)
      (fun x hx => hl x (List.mem_cons_of_mem l hx))

theorem foldl_zipWith_or_acc_mono :
    ∀ (ls : List (List Bool)) (acc : List Bool) (j : Nat), acc.length = m →
      (∀ l ∈ ls, l.length = m) → acc.getD j false = true →
      (ls.foldl (List.zipWith (· || ·)) acc).getD j false = true
  | [], _, _, _, _, h => h
  | l :: rest, acc, j, ha, hl, h => by
    rw [List.foldl_cons]
    refine foldl_zipWith_or_acc_mono rest _ j
      (by rw [List.length_zipWith, ha, hl l (List.mem_cons_self l rest)]; simp)
      (fun x hx => hl x (List.mem_cons_of_mem l hx)) ?_
    rw [BloomFilter.zipWith_or_getD (by rw [ha, hl l (List.mem_cons_self l rest)]), h,
      Bool.true_or]

theorem foldl_zipWith_or_mem_mono :
    ∀ (ls : List (List Bool)) (acc : List Bool) (bs : List Bool) (j : Nat),
      acc.length = m → (∀ l ∈ ls, l.length = m) → bs ∈ ls →
      bs.getD j false = true →
      (ls.foldl (List.zipWith (· || ·)) acc).getD j false = true
  | [], _, bs, _, _, _, hmem, _ => absurd hmem (List.not_mem_nil bs)
  | l :: rest, acc, bs, j, ha, hl, hmem, h => by
    rw [List.foldl_cons]
    rcases List.mem_cons.mp hmem with heq | hmem'
    · subst heq
      refine foldl_zipWith_or_acc_mono rest _ j
        (by rw [List.length_zipWith, ha, hl bs (List.mem_cons_self bs rest)]; simp)
        (fun x hx => hl x (List.mem_cons_of_mem bs hx)) ?_
      rw [BloomFilter.zipWith_or_getD (by rw [ha, hl bs (List.mem_cons_self bs rest)]), h,
        Bool.or_true]
    · exact foldl_zipWith_or_mem_mono rest _ bs j
        (by rw [List.length_zipWith, ha, hl l (List.mem_cons_self l rest)]; simp)
        (fun x hx => hl x (List.mem_cons_of_mem l hx)) hmem' h

theorem orFold_length {m : Nat} {ls : List (List Bool)}
    (hl : ∀ l ∈ ls, l.length = m) : (orFold m ls).length = m :=
  foldl_zipWith_or_length ls _ (List.length_replicate m false) hl

theorem orFold_mem_mono {m : Nat} {ls : List (List Bool)} {bs : List Bool}
    {j : Nat} (hl : ∀ l ∈ ls, l.length = m) (hmem : bs ∈ ls)
    (h : bs.getD j false = true) : (orFold m ls).getD j false = true :=
  foldl_zipWith_or_mem_mono ls _ bs j (List.length_replicate m false) hl hmem h

/-- The local invariant of a node of a built tree: filter geometry `(m, k)`,
leaves carry a real file tag, interior nodes carry the `"Memory"` tag, span
their children's ranges, and OR their children's filters. -/
def LocalOK (m k : Nat) (n : Node) : Prop :=
  n.bloom.bitArraySize = m ∧ n.bloom.numHashFunctions = k ∧
  n.bloom.bitArray.length = m ∧
  (n.children = [] → n.filename ≠ memoryTag) ∧
  (n.children ≠ [] →
    n.filename = memoryTag ∧
    (∀ c ∈ n.children, n.startKey ≤ c.startKey ∧ c.endKey ≤ n.endKey) ∧
    (∃ c ∈ n.children, c.startKey = n.startKey) ∧
    (∃ c ∈ n.children, c.endKey = n.endKey) ∧
    n.bloom.bitArray = orFold m (n.children.map (fun c => c.bloom.bitArray)))

/-- A built tree: every node of the subtree satisfies `LocalOK`. -/
def GoodTree (m k : Nat) (n : Node) : Prop :=
  ∀ d ∈ n.allNodes, LocalOK m k d

theorem GoodTree.localOK {m k : Nat} {n : Node} (h : GoodTree m k n) :
    LocalOK m k n :=
  h n n.self_mem_allNodes

theorem GoodTree.sub {m k : Nat} {n d : Node} (h : GoodTree m k n)
    (hd : d ∈ n.allNodes) : GoodTree m k d :=
  fun e he => h e (Node.allNodes_trans he hd)

theorem GoodTree.child {m k : Nat} {n c : Node} (h : GoodTree m k n)
    (hc : c ∈ n.children) : GoodTree m k c :=
  h.sub (Node.mem_allNodes_of_child hc c.self_mem_allNodes)

theorem goodTree_range {m k : Nat} : ∀ {n : Node}, GoodTree m k n →
    ∀ {d : Node}, d ∈ n.allNodes →
      n.startKey ≤ d.startKey ∧ d.endKey ≤ n.endKey := by
  intro n
  induction n using Node.allNodes.induct with
  | _ n ih =>
    intro hg d hd
    rcases Node.mem_allNodes_iff.mp hd with heq | ⟨c, hc, hd'⟩
    · subst heq
      exact ⟨le_refl _, le_refl _⟩
    · have hloc := hg.localOK.2.2.2.2 (by intro h; rw [h] at hc; exact absurd hc (List.not_mem_nil c))
      have hcr := hloc.2.1 c hc
      have hrec := ih ⟨c, hc⟩ (hg.child hc) hd'
      exact ⟨le_trans hcr.1 hrec.1, le_trans hrec.2 hcr.2⟩

theorem goodTree_bits {m k : Nat} : ∀ {n : Node}, GoodTree m k n →
    ∀ {d : Node}, d ∈ n.allNodes → ∀ j,
      d.bloom.bitArray.getD j false = true →
      n.bloom.bitArray.getD j false = true := by
  intro n
  induction n using Node.allNodes.induct with
  | _ n ih =>
    intro hg d hd j hj
    rcases Node.mem_allNodes_iff.mp hd with heq | ⟨c, hc, hd'⟩
    · exact heq ▸ hj
    · have hne : n.children ≠ [] := by
        intro h; rw [h] at hc; exact absurd hc (List.not_mem_nil c)
      have hloc := hg.localOK.2.2.2.2 hne
      rw [hloc.2.2.2.2]
      refine orFold_mem_mono ?_ (List.mem_map_of_mem _ hc) (ih ⟨c, hc⟩ (hg.child hc) hd' j hj)
      intro l hl
      rcases List.mem_map.mp hl with ⟨c', hc', rfl⟩
      exact ((hg.child hc').localOK).2.2.1

theorem goodTree_bexists {hash : HashF} {m k : Nat} {n d : Node}
    (hg : GoodTree m k n) (hd : d ∈ n.allNodes) {v : Str}
    (h : d.bloom.bexists hash v = true) : n.bloom.bexists hash v = true := by
  have hdg := hg.sub hd
  refine BloomFilter.bexists_mono ?_ ?_ (fun j => goodTree_bits hg hd j) h
  · rw [hg.localOK.1, hdg.localOK.1]
  · rw [hg.localOK.2.1, hdg.localOK.2.1]

theorem foldl_min_le_init [LinearOrder α] :
    ∀ (l : List β) (f : β → α) (a : α), l.foldl (fun x d => min x (f d)) a ≤ a
  | [], _, _ => le_refl _
  | x :: rest, f, a => by
    rw [List.foldl_cons]
    exact le_trans (foldl_min_le_init rest f (min a (f x))) (min_le_left _ _)

theorem foldl_min_le_mem [LinearOrder α] :
    ∀ (l : List β) (f : β → α) (a : α) (x : β), x ∈ l →
      l.foldl (fun y d => min y (f d)) a ≤ f x
  | [], _, _, x, hx => absurd hx (List.not_mem_nil x)
  | y :: rest, f, a, x, hx => by
    rw [List.foldl_cons]
    rcases List.mem_cons.mp hx with heq | hmem
    · subst heq
      exact le_trans (foldl_min_le_init rest f (min a (f x))) (min_le_right _ _)
    · exact foldl_min_le_mem rest f _ x hmem

theorem foldl_min_eq_init_or_mem [LinearOrder α] :
    ∀ (l : List β) (f : β → α) (a : α),
      l.foldl (fun y d => min y (f d)) a = a ∨
        ∃ x ∈ l, l.foldl (fun y d => min y (f d)) a = f x
  | [], _, _ => Or.inl rfl
  | y :: rest, f, a => by
    rw [List.foldl_cons]
    rcases foldl_min_eq_init_or_mem rest f (min a (f y)) with h | ⟨x, hx, h⟩
    · rcases min_cases a (f y) with ⟨hm, _⟩ | ⟨hm, _⟩
      · exact Or.inl (h.trans hm)
      · exact Or.inr ⟨y, List.mem_cons_self y rest, h.trans hm⟩
    · exact Or.inr ⟨x, List.mem_cons_of_mem y hx, h⟩

theorem foldl_max_le_init [LinearOrder α] :
    ∀ (l : List β) (f : β → α) (a : α), a ≤ l.foldl (fun x d => max x (f d)) a
  | [], _, _ => le_refl _
  | x :: rest, f, a => by
    rw [List.foldl_cons]
    exact le_trans (le_max_left _ _) (foldl_max_le_init rest f (max a (f x)))

theorem foldl_max_le_mem [LinearOrder α] :
    ∀ (l : List β) (f : β → α) (a : α) (x : β), x ∈ l →
      f x ≤ l.foldl (fun y d => max y (f d)) a
  | [], _, _, x, hx => absurd hx (List.not_mem_nil x)
  | y :: rest, f, a, x, hx => by
    rw [List.foldl_cons]
    rcases List.mem_cons.mp hx with heq | hmem
    · subst heq
      exact le_trans (le_max_right _ _) (foldl_max_le_init rest f (max a (f x)))
    · exact foldl_max_le_mem rest f _ x hmem

theorem foldl_max_eq_init_or_mem [LinearOrder α] :
    ∀ (l : List β) (f : β → α) (a : α),
      l.foldl (fun y d => max y (f d)) a = a ∨
        ∃ x ∈ l, l.foldl (fun y d => max y (f d)) a = f x
  | [], _, _ => Or.inl rfl
  | y :: rest, f, a => by
    rw [List.foldl_cons]
    rcases foldl_max_eq_init_or_mem rest f (max a (f y)) with h | ⟨x, hx, h⟩
    · rcases max_cases a (f y) with ⟨hm, _⟩ | ⟨hm, _⟩
      · exact Or.inl (h.trans hm)
      · exact Or.inr ⟨y, List.mem_cons_self y rest, h.trans hm⟩
    · exact Or.inr ⟨x, List.mem_cons_of_mem y hx, h⟩

theorem foldlM_merge_ok {m k : Nat} :
    ∀ (g : List Node) (acc : BloomFilter),
      acc.bitArray.length = m → acc.bitArraySize = m → acc.numHashFunctions = k →
      (∀ c ∈ g, c.bloom.bitArray.length = m) →
      g.foldlM (fun acc child => acc.merge child.bloom) acc =
        .ok { bitArray := g.foldl
                (fun bits c => List.zipWith (· || ·) bits c.bloom.bitArray)
                acc.bitArray
              numHashFunctions := k
              bitArraySize := m }
  | [], acc, hl, hs, hk, _ => by
    obtain ⟨arr, k', m'⟩ := acc
    simp only [BloomFilter.numHashFunctions] at hk
    simp only [BloomFilter.bitArraySize] at hs
    subst hk hs
    simp [List.foldlM_nil, List.foldl_nil]
    rfl
  | c :: rest, acc, hl, hs, hk, hg => by
    rw [List.foldlM_cons, BloomFilter.merge_ok_of_length_eq
      (by rw [hl, hg c (List.mem_cons_self c rest)]), List.foldl_cons]
    exact foldlM_merge_ok rest _
      (by simp [List.length_zipWith, hl, hg c (List.mem_cons_self c rest)])
      hs hk (fun x hx => hg x (List.mem_cons_of_mem c hx))

theorem mkParent_cons_ok {m k : Nat} {c : Node} {rest : List Node}
    (hgeo : ∀ x ∈ c :: rest, x.bloom.bitArray.length = m) :
    mkParent m k (c :: rest) = .ok (Node.mk
      { bitArray := orFold m ((c :: rest).map (fun d => d.bloom.bitArray))
        numHashFunctions := k
        bitArraySize := m }
      memoryTag
      ((c :: rest).foldl (fun a d => min a d.startKey) c.startKey)
      ((c :: rest).foldl (fun a d => max a d.endKey) c.endKey)
      (c :: rest)) := by
  unfold mkParent
  rw [foldlM_merge_ok (c :: rest) (BloomFilter.new m k)
    (by simp [BloomFilter.new]) rfl rfl hgeo]
  show Except.ok _ = _
  congr 2
  rw [orFold, List.foldl_map]
  rfl

theorem chunksTake_ne_nil {N : Nat} :
    ∀ {l : List α} {g : List α}, g ∈ chunksTake N l → g ≠ []
  | [], g, hg => by simp at hg
  | x :: rest, g, hg => by
    rw [chunksTake_cons] at hg
    rcases List.mem_cons.mp hg with heq | hmem
    · subst heq
      simp
    · exact chunksTake_ne_nil hmem
termination_by l => l.length
decreasing_by simp [List.length_drop]; omega

theorem mem_of_mem_chunksTake {N : Nat} {l g : List α} {x : α}
    (hg : g ∈ chunksTake N l) (hx : x ∈ g) : x ∈ l := by
  rw [← chunksTake_flatten N l]
  exact List.mem_flatten.mpr ⟨g, hg, hx⟩

theorem leavesList_leaf {n : Node} (h : n.children = []) :
    n.leavesList = [n] := by
  unfold Node.leavesList
  rw [Node.allNodes_eq, h]
  simp [h]

theorem leavesList_interior {n : Node} (h : n.children ≠ []) :
    n.leavesList = (n.children.map Node.leavesList).flatten := by
  unfold Node.leavesList
  rw [Node.allNodes_eq]
  rw [List.filter_cons_of_neg (by simpa using h), List.filter_flatten,
    List.map_map]
  rfl

theorem mem_leavesList {n L : Node} (h : L ∈ n.leavesList) :
    L ∈ n.allNodes ∧ L.children = [] := by
  unfold Node.leavesList at h
  have := List.mem_filter.mp h
  exact ⟨this.1, by simpa using this.2⟩

theorem except_bind_ok (a : α) (f : α → Except ε β) :
    (Except.ok a >>= f) = f a := rfl

theorem mapM_mkParent {m k : Nat} :
    ∀ (gs : List (List Node)) (ps : List Node),
      gs.mapM (mkParent m k) = .ok ps →
      (∀ g ∈ gs, g ≠ [] ∧ ∀ x ∈ g, GoodTree m k x) →
      (∀ p ∈ ps, GoodTree m k p) ∧
      (ps.map Node.leavesList).flatten = ((gs.flatten).map Node.leavesList).flatten
  | [], ps, hok, _ => by
    rw [List.mapM_nil] at hok
    injection hok with hok
    subst hok
    exact ⟨fun p hp => absurd hp (List.not_mem_nil p), by simp⟩
  | g :: gs', ps, hok, hg => by
    rw [List.mapM_cons] at hok
    obtain ⟨hgne, hgood⟩ := hg g (List.mem_cons_self g gs')
    match hc : g with
    | [] => exact absurd rfl hgne
    | c :: grest =>
      rw [mkParent_cons_ok (fun x hx => (hgood x hx).localOK.2.2.1)] at hok
      simp only [except_bind_ok] at hok
      match hrest : gs'.mapM (mkParent m k) with
      | .error e => rw [hrest] at hok; exact absurd hok (by simp)
      | .ok ps' =>
        rw [hrest] at hok
        simp only [except_bind_ok, pure, Except.pure] at hok
        injection hok with hok
        subst hok
        obtain ⟨hps', hleaves'⟩ := mapM_mkParent gs' ps' hrest
          (fun g' hg' => hg g' (List.mem_cons_of_mem _ hg'))
        set P := Node.mk
          { bitArray := orFold m ((c :: grest).map (fun d => d.bloom.bitArray))
            numHashFunctions := k
            bitArraySize := m }
          memoryTag
          ((c :: grest).foldl (fun a d => min a d.startKey) c.startKey)
          ((c :: grest).foldl (fun a d => max a d.endKey) c.endKey)
          (c :: grest) with hP
        have hPch : P.children = c :: grest := rfl
        have hPgood : GoodTree m k P := by
          intro d hd
          rcases Node.mem_allNodes_iff.mp hd with heq | ⟨ch, hch, hd'⟩
          · subst heq
            refine ⟨rfl, rfl, ?_, ?_, ?_⟩
            · show (orFold m ((c :: grest).map (fun d => d.bloom.bitArray))).length = m
              refine orFold_length ?_
              intro l hl
              rcases List.mem_map.mp hl with ⟨c', hc', rfl⟩
              exact (hgood c' hc').localOK.2.2.1
            · intro habs
              rw [hPch] at habs
              exact absurd habs (by simp)
            · intro _
              refine ⟨rfl, ?_, ?_, ?_, rfl⟩
              · intro ch hch
                exact ⟨foldl_min_le_mem _ _ _ ch hch, foldl_max_le_mem _ _ _ ch hch⟩
              · rcases foldl_min_eq_init_or_mem (c :: grest) Node.startKey c.startKey
                  with h | ⟨x, hx, h⟩
                · exact ⟨c, List.mem_cons_self c grest, h.symm⟩
                · exact ⟨x, hx, h.symm⟩
              · rcases foldl_max_eq_init_or_mem (c :: grest) Node.endKey c.endKey
                  with h | ⟨x, hx, h⟩
                · exact ⟨c, List.mem_cons_self c grest, h.symm⟩
                · exact ⟨x, hx, h.symm⟩
          · exact (hgood ch (hPch ▸ hch)) d hd'
        refine ⟨?_, ?_⟩
        · intro p hp
          rcases List.mem_cons.mp hp with heq | hmem
          · exact heq ▸ hPgood
          · exact hps' p hmem
        · rw [List.map_cons, List.flatten_cons,
            leavesList_interior (by rw [hPch]; simp), hPch, hleaves']
          rw [List.flatten_cons, List.map_append, List.flatten_append]

theorem buildLevelStep_ok {m k r : Nat} {nodes parents : List Node}
    (hs : buildLevelStep m k r nodes = .ok parents)
    (hg : ∀ x ∈ nodes, GoodTree m k x) :
    (∀ p ∈ parents, GoodTree m k p) ∧
    (parents.map Node.leavesList).flatten = (nodes.map Node.leavesList).flatten := by
  unfold buildLevelStep at hs
  obtain ⟨hps, hlv⟩ := mapM_mkParent (chunksTake r nodes) parents hs
    (fun g hgm => ⟨chunksTake_ne_nil hgm,
      fun x hx => hg x (mem_of_mem_chunksTake hgm hx)⟩)
  rw [chunksTake_flatten] at hlv
  exact ⟨hps, hlv⟩


theorem buildLevelFuel_ok {m k r : Nat} :
    ∀ (fuel : Nat) (lvl : List Node) (root : Node),
      buildLevelFuel m k r fuel lvl = some (.ok root) →
      (∀ x ∈ lvl, GoodTree m k x) →
      GoodTree m k root ∧
      root.leavesList = (lvl.map Node.leavesList).flatten
  | 0, lvl, root, h, _ => by simp [buildLevelFuel] at h
  | fuel + 1, [n], root, h, hg => by
    simp only [buildLevelFuel, Option.some_inj] at h
    injection h with h
    subst h
    exact ⟨hg n (List.mem_cons_self n []), by simp⟩
  | fuel + 1, [], root, h, hg => by
    rw [show buildLevelFuel m k r (fuel + 1) ([] : List Node) =
      buildLevelFuel m k r fuel [] from rfl] at h
    obtain ⟨hgood, hlv⟩ := buildLevelFuel_ok fuel [] root h
      (fun x hx => absurd hx (List.not_mem_nil x))
    exact ⟨hgood, by simpa using hlv⟩
  | fuel + 1, a :: b :: t, root, h, hg => by
    rw [show buildLevelFuel m k r (fuel + 1) (a :: b :: t) =
      (match buildLevelStep m k r (a :: b :: t) with
       | .error e => some (.error e)
       | .ok parents => buildLevelFuel m k r fuel parents) from rfl] at h
    match hstep : buildLevelStep m k r (a :: b :: t) with
    | .error e =>
      rw [hstep] at h
      simp at h
    | .ok parents =>
      rw [hstep] at h
      obtain ⟨hpg, hplv⟩ := buildLevelStep_ok hstep hg
      obtain ⟨hgood, hlv⟩ := buildLevelFuel_ok fuel parents root h hpg
      exact ⟨hgood, by rw [hlv, hplv]⟩

theorem buildColumn_good {hash : HashF} {storage : Storage}
    {m k N r fuel : Nat} {files : List Str} {root : Node} (hN : 1 ≤ N)
    (hF : ∀ f ∈ files, f ≠ memoryTag)
    (hroot : buildColumn hash storage m k N r fuel files = some root) :
    GoodTree m k root ∧
    root.leavesList =
      (files.map (fun f => processSSTFile hash m k N f (storage f))).flatten := by
  rw [show buildColumn hash storage m k N r fuel files =
    (match buildLevelFuel m k r fuel
        ((files.map (fun f => processSSTFile hash m k N f (storage f))).flatten) with
     | some (.ok root) => some root
     | _ => none) from rfl] at hroot
  have hleafgood : ∀ L ∈ (files.map
      (fun f => processSSTFile hash m k N f (storage f))).flatten,
      GoodTree m k L ∧ L.children = [] := by
    intro L hL
    rcases List.mem_flatten.mp hL with ⟨l, hl, hLl⟩
    rcases List.mem_map.mp hl with ⟨f, hf, rfl⟩
    rw [(processSSTFile_spec hash m k N f (storage f) hN).1] at hLl
    rcases List.mem_map.mp hLl with ⟨run, _, rfl⟩
    constructor
    · intro d hd
      rcases Node.mem_allNodes_iff.mp hd with heq | ⟨c, hc, _⟩
      · subst heq
        refine ⟨by simp [mkLeaf, BloomFilter.new], by simp [mkLeaf, BloomFilter.new],
          by simp [mkLeaf, BloomFilter.insertList_length, BloomFilter.new], ?_, ?_⟩
        · intro _
          show f ≠ memoryTag
          exact hF f hf
        · intro habs
          simp [mkLeaf] at habs
      · simp [mkLeaf] at hc
    · rfl
  match hbl : buildLevelFuel m k r fuel
      ((files.map (fun f => processSSTFile hash m k N f (storage f))).flatten) with
  | none => rw [hbl] at hroot; simp at hroot
  | some (.error e) => rw [hbl] at hroot; simp at hroot
  | some (.ok root') =>
    rw [hbl] at hroot
    simp only [Option.some_inj] at hroot
    subst hroot
    obtain ⟨hgood, hlv⟩ := buildLevelFuel_ok fuel _ root' hbl
      (fun x hx => (hleafgood x hx).1)
    refine ⟨hgood, ?_⟩
    rw [hlv]
    have hall : ∀ (ls : List Node), (∀ L ∈ ls, L.children = []) →
        (ls.map Node.leavesList).flatten = ls := by
      intro ls
      induction ls with
      | nil => intro _; rfl
      | cons a rest ih =>
        intro hall
        rw [List.map_cons, List.flatten_cons,
          leavesList_leaf (hall a (List.mem_cons_self a rest)),
          ih (fun x hx => hall x (List.mem_cons_of_mem a hx))]
        rfl
    exact hall _ (fun L hL => (hleafgood L hL).2)

theorem chunksTake_length_le {r : Nat} :
    ∀ (l : List α), (chunksTake r l).length ≤ l.length
  | [] => by simp
  | x :: rest => by
    rw [chunksTake_cons]
    simp only [List.length_cons]
    have h1 := @chunksTake_length_le _ r (rest.drop (r - 1))
    simp only [List.length_drop] at h1
    omega
termination_by l => l.length
decreasing_by simp [List.length_drop]; omega

theorem chunksTake_length_lt {r : Nat} {l : List α} (hr : 2 ≤ r)
    (hl : 2 ≤ l.length) : (chunksTake r l).length < l.length := by
  match l with
  | [] => simp at hl
  | x :: rest =>
    rw [chunksTake_cons]
    simp only [List.length_cons]
    by_cases hd : rest.length ≤ r - 1
    · rw [List.drop_eq_nil_of_le hd]
      simp only [chunksTake_nil, List.length_nil]
      simp only [List.length_cons] at hl
      omega
    · have h1 := @chunksTake_length_le _ r (rest.drop (r - 1))
      simp only [List.length_drop] at h1
      omega

theorem chunksTake_length_of_r_le_one {r : Nat} (hr : r ≤ 1) :
    ∀ (l : List α), (chunksTake r l).length = l.length
  | [] => by simp
  | x :: rest => by
    rw [chunksTake_cons]
    have hr0 : r - 1 = 0 := by omega
    rw [hr0, List.drop_zero]
    simp only [List.length_cons, chunksTake_length_of_r_le_one hr rest]
termination_by l => l.length
decreasing_by simp

theorem mapM_mkParent_exists {m k : Nat} :
    ∀ (gs : List (List Node)),
      (∀ g ∈ gs, g ≠ [] ∧ ∀ x ∈ g, x.bloom.bitArray.length = m) →
      ∃ ps, gs.mapM (mkParent m k) = .ok ps ∧ ps.length = gs.length ∧
        ∀ p ∈ ps, p.bloom.bitArray.length = m
  | [], _ => ⟨[], by rw [List.mapM_nil]; rfl, rfl, fun p hp => absurd hp (List.not_mem_nil p)⟩
  | g :: gs', hg => by
    obtain ⟨hgne, hgeo⟩ := hg g (List.mem_cons_self g gs')
    obtain ⟨ps', hps', hlen', hgeo'⟩ := mapM_mkParent_exists gs'
      (fun g' hg' => hg g' (List.mem_cons_of_mem _ hg'))
    match hc : g with
    | [] => exact absurd hc hgne
    | c :: grest =>
      refine ⟨Node.mk
          { bitArray := orFold m ((c :: grest).map (fun d => d.bloom.bitArray))
            numHashFunctions := k
            bitArraySize := m }
          memoryTag
          ((c :: grest).foldl (fun a d => min a d.startKey) c.startKey)
          ((c :: grest).foldl (fun a d => max a d.endKey) c.endKey)
          (c :: grest) :: ps', ?_, by simp [hlen'], ?_⟩
      · rw [List.mapM_cons, mkParent_cons_ok (hc ▸ hgeo), except_bind_ok, hps',
          except_bind_ok]
        rfl
      · intro p hp
        rcases List.mem_cons.mp hp with heq | hmem
        · subst heq
          show (orFold m ((c :: grest).map (fun d => d.bloom.bitArray))).length = m
          refine orFold_length ?_
          intro l hl
          rcases List.mem_map.mp hl with ⟨c', hc', rfl⟩
          exact hgeo c' (hc ▸ hc')
        · exact hgeo' p hmem

theorem buildLevelFuel_terminates {m k r : Nat} (hr : 2 ≤ r) :
    ∀ (fuel : Nat) (nodes : List Node), nodes ≠ [] →
      (∀ x ∈ nodes, x.bloom.bitArray.length = m) → nodes.length < fuel →
      ∃ root, buildLevelFuel m k r fuel nodes = some (.ok root)
  | 0, nodes, hne, _, hflt => by
    match nodes with
    | [] => exact absurd rfl hne
    | _ :: _ => simp at hflt
  | fuel + 1, [], hne, _, _ => absurd rfl hne
  | fuel + 1, [n], _, _, _ => ⟨n, rfl⟩
  | fuel + 1, a :: b :: t, _, hgeo, hflt => by
    obtain ⟨ps, hps, hlen, hgeo'⟩ := @mapM_mkParent_exists m k
      (chunksTake r (a :: b :: t))
      (fun g hgm => ⟨chunksTake_ne_nil hgm,
        fun x hx => hgeo x (mem_of_mem_chunksTake hgm hx)⟩)
    have hstep : buildLevelStep m k r (a :: b :: t) = .ok ps := hps
    have hlt : (chunksTake r (a :: b :: t)).length < (a :: b :: t).length :=
      chunksTake_length_lt hr (by simp)
    have hpsne : ps ≠ [] := by
      intro habs
      rw [habs] at hlen
      rw [chunksTake_cons] at hlen
      simp at hlen
    obtain ⟨root, hroot⟩ := buildLevelFuel_terminates hr fuel ps hpsne hgeo'
      (by
        have h2 := hlt
        simp only [List.length_cons] at hflt h2
        omega)
    refine ⟨root, ?_⟩
    rw [show buildLevelFuel m k r (fuel + 1) (a :: b :: t) =
      (match buildLevelStep m k r (a :: b :: t) with
       | .error e => some (.error e)
       | .ok parents => buildLevelFuel m k r fuel parents) from rfl, hstep]
    exact hroot

theorem buildLevelFuel_nil_none {m k r : Nat} :
    ∀ (fuel : Nat), buildLevelFuel m k r fuel ([] : List Node) = none
  | 0 => rfl
  | fuel + 1 => by
    rw [show buildLevelFuel m k r (fuel + 1) ([] : List Node) =
      buildLevelFuel m k r fuel [] from rfl]
    exact buildLevelFuel_nil_none fuel

theorem buildLevelFuel_stalls {m k : Nat} {r : Nat} (hr : r ≤ 1) :
    ∀ (fuel : Nat) (nodes : List Node), 2 ≤ nodes.length →
      (∀ x ∈ nodes, x.bloom.bitArray.length = m) →
      buildLevelFuel m k r fuel nodes = none
  | 0, _, _, _ => rfl
  | fuel + 1, [], h2, _ => by simp at h2
  | fuel + 1, [n], h2, _ => by simp at h2
  | fuel + 1, a :: b :: t, h2, hgeo => by
    obtain ⟨ps, hps, hlen, hgeo'⟩ := @mapM_mkParent_exists m k
      (chunksTake r (a :: b :: t))
      (fun g hgm => ⟨chunksTake_ne_nil hgm,
        fun x hx => hgeo x (mem_of_mem_chunksTake hgm hx)⟩)
    rw [show buildLevelFuel m k r (fuel + 1) (a :: b :: t) =
      (match buildLevelStep m k r (a :: b :: t) with
       | .error e => some (.error e)
       | .ok parents => buildLevelFuel m k r fuel parents) from rfl,
      show buildLevelStep m k r (a :: b :: t) = .ok ps from hps]
    refine buildLevelFuel_stalls hr fuel ps ?_ hgeo'
    rw [hlen, chunksTake_length_of_r_le_one hr]
    simpa using h2

/-- A hash used by concrete witnesses: `"x" ↦ 0`, `"y" ↦ 1`, anything else
hashes to its seed. -/
def demoHash : HashF := fun v i =>
  if v = str "x" then 0 else if v = str "y" then 1 else i

/-- A two-file storage used by concrete witnesses. -/
def demoStorage : Storage := fun f =>
  if f = str "f1" then [(str "a", str "x")]
  else if f = str "f2" then [(str "b", str "y")] else []

/-- The tree `buildColumn` produces from `demoStorage` with
`N = 1, m = 2, k = 2, r = 2`. -/
def demoRoot : Node :=
  Node.mk (BloomFilter.mk [true, true] 2 2) memoryTag (str "a") (str "b")
    [Node.mk (BloomFilter.mk [true, false] 2 2) (str "f1") (str "a") (str "a") [],
     Node.mk (BloomFilter.mk [false, true] 2 2) (str "f2") (str "b") (str "b") []]

/-- Claim C10 — level-by-level composition: with at least one leaf and
fan-out `r ≥ 2` (and mergeable filters, i.e. uniform bit-array length) the
recursion terminates with a single root within `leaves + 1` levels of call
depth, because each level's parent count `⌈n/r⌉` is strictly smaller; with
zero leaves the recursion never reaches a singleton level (`none` for every
fuel), and with `r ≤ 1` and at least two leaves the level size never
decreases, so it never reaches one either. -/
theorem buildLevel_termination :
    (∀ (m k r : Nat) (leaves : List Node), 2 ≤ r → leaves ≠ [] →
      (∀ x ∈ leaves, x.bloom.bitArray.length = m) →
      ∃ root, buildLevelFuel m k r (leaves.length + 1) leaves = some (.ok root))
    ∧ (∀ (m k r fuel : Nat), buildLevelFuel m k r fuel ([] : List Node) = none)
    ∧ (∀ (m k r fuel : Nat) (leaves : List Node), r ≤ 1 → 2 ≤ leaves.length →
      (∀ x ∈ leaves, x.bloom.bitArray.length = m) →
      buildLevelFuel m k r fuel leaves = none)
    ∧ (∀ (r : Nat) (nodes : List Node), 2 ≤ r → 2 ≤ nodes.length →
      (chunksTake r nodes).length < nodes.length) :=
  ⟨fun m k r leaves hr hne hgeo =>
      buildLevelFuel_terminates hr (leaves.length + 1) leaves hne hgeo
        (Nat.lt_succ_self _),
    fun m k r fuel => buildLevelFuel_nil_none fuel,
    fun m k r fuel leaves hr h2 hgeo => buildLevelFuel_stalls hr fuel leaves h2 hgeo,
    fun r nodes hr h2 => chunksTake_length_lt hr h2⟩

/-- Witness for C10: its positive part at two concrete leaves with `r = 2`. -/
theorem buildLevel_termination_witness :
    ∃ root, buildLevelFuel 2 2 2 3
      [Node.mk (BloomFilter.mk [true, false] 2 2) (str "f1") (str "a") (str "a") [],
       Node.mk (BloomFilter.mk [false, true] 2 2) (str "f2") (str "b") (str "b") []] =
      some (.ok root) :=
  buildLevel_termination.1 2 2 2
    [Node.mk (BloomFilter.mk [true, false] 2 2) (str "f1") (str "a") (str "a") [],
     Node.mk (BloomFilter.mk [false, true] 2 2) (str "f2") (str "b") (str "b") []]
    (by norm_num) (by simp) (by decide)

/-- Claim C2 (amended) — for every tree the builder produces, every interior
node's `startKey`/`endKey` are the min/max of its children's keys, and its
filter is the bitwise OR of the children's filters; consequently `exists(v)`
true on **some descendant leaf** implies `exists(v)` true on the interior
node.  (The converse direction claimed in the spec — interior positive ⇒
some descendant leaf positive — is false; see the counterexample.) -/
theorem build_interior_invariants (hash : HashF) (storage : Storage)
    (m k N r fuel : Nat) (files : List Str) (root : Node) (hN : 1 ≤ N)
    (hF : ∀ f ∈ files, f ≠ memoryTag)
    (hroot : buildColumn hash storage m k N r fuel files = some root) :
    ∀ n ∈ root.allNodes, n.children ≠ [] →
      (∀ c ∈ n.children, n.startKey ≤ c.startKey ∧ c.endKey ≤ n.endKey) ∧
      (∃ c ∈ n.children, c.startKey = n.startKey) ∧
      (∃ c ∈ n.children, c.endKey = n.endKey) ∧
      n.bloom.bitArray = orFold m (n.children.map (fun c => c.bloom.bitArray)) ∧
      (∀ v : Str, (∃ L ∈ n.leavesList, L.bloom.bexists hash v = true) →
        n.bloom.bexists hash v = true) := by
  obtain ⟨hgood, _⟩ := buildColumn_good hN hF hroot
  intro n hn hne
  have hng : GoodTree m k n := hgood.sub hn
  have hloc := hng.localOK.2.2.2.2 hne
  refine ⟨hloc.2.1, hloc.2.2.1, hloc.2.2.2.1, hloc.2.2.2.2, ?_⟩
  rintro v ⟨L, hL, hpos⟩
  exact goodTree_bexists hng (mem_leavesList hL).1 hpos

/-- Witness for C2 (amended) at the concrete demo build, instantiated at the
interior root node. -/
theorem build_interior_invariants_witness :
    (∀ c ∈ demoRoot.children, demoRoot.startKey ≤ c.startKey ∧
        c.endKey ≤ demoRoot.endKey) ∧
      (∃ c ∈ demoRoot.children, c.startKey = demoRoot.startKey) ∧
      (∃ c ∈ demoRoot.children, c.endKey = demoRoot.endKey) ∧
      demoRoot.bloom.bitArray =
        orFold 2 (demoRoot.children.map (fun c => c.bloom.bitArray)) ∧
      (∀ v : Str, (∃ L ∈ demoRoot.leavesList,
          L.bloom.bexists demoHash v = true) →
        demoRoot.bloom.bexists demoHash v = true) :=
  build_interior_invariants demoHash demoStorage 2 2 1 2 3 [str "f1", str "f2"]
    demoRoot (by norm_num) (by decide) (by rfl)
    demoRoot demoRoot.self_mem_allNodes (List.cons_ne_nil _ _)

/-- Counterexample to C2 as stated: on the demo build, `exists("q")` is true
on the interior root (its OR-ed filter has both bits), yet `exists("q")` is
false on **every** descendant leaf — the probed bits come from different
children.  So "exists(v) true on an interior node implies exists(v) true on
at least one descendant leaf" fails for trees produced by the builder. -/
theorem interior_exists_without_leaf :
    buildColumn demoHash demoStorage 2 2 1 2 3 [str "f1", str "f2"] = some demoRoot
    ∧ demoRoot.bloom.bexists demoHash (str "q") = true
    ∧ demoRoot.children.all
        (fun L => L.children.isEmpty && !(L.bloom.bexists demoHash (str "q"))) = true :=
  ⟨rfl, rfl, rfl⟩

theorem search_iff_reachEmit (hash : HashF) (value qStart qEnd : Str) :
    ∀ (n : Node) (f : Str),
      f ∈ BloomTree.search hash value qStart qEnd n ↔
        ReachEmit hash value qStart qEnd n f := by
  intro n
  induction n using Node.allNodes.induct with
  | _ n ih =>
    intro f
    rw [BloomTree.search]
    by_cases hov : overlaps n qStart qEnd
    · rw [if_pos hov]
      by_cases hpos : n.bloom.bexists hash value = true
      · rw [if_pos hpos]
        by_cases hleaf : n.filename ≠ memoryTag
        · rw [if_pos hleaf]
          simp only [List.mem_singleton]
          constructor
          · rintro rfl
            exact ReachEmit.emit n hov hpos hleaf
          · intro hre
            cases hre with
            | emit _ _ _ _ => rfl
            | step _ c f hov' hpos' hint hc hrec => exact absurd hint hleaf
        · rw [if_neg hleaf]
          push_neg at hleaf
          rw [List.attach_map_val n.children (BloomTree.search hash value qStart qEnd)]
          simp only [List.mem_flatten, List.mem_map]
          constructor
          · rintro ⟨l, ⟨c, hc, rfl⟩, hf⟩
            exact ReachEmit.step n c f hov hpos hleaf hc ((ih ⟨c, hc⟩ f).mp hf)
          · intro hre
            cases hre with
            | emit _ _ _ hlf => exact absurd hleaf hlf
            | step _ c f hov' hpos' hint hc hrec =>
              exact ⟨_, ⟨c, hc, rfl⟩, (ih ⟨c, hc⟩ f).mpr hrec⟩
      · rw [if_neg hpos]
        constructor
        · intro hf
          exact absurd hf (List.not_mem_nil f)
        · intro hre
          cases hre with
          | emit _ _ hp _ => exact absurd hp hpos
          | step _ c f _ hp _ _ _ => exact absurd hp hpos
    · rw [if_neg hov]
      constructor
      · intro hf
        exact absurd hf (List.not_mem_nil f)
      · intro hre
        cases hre with
        | emit _ ho _ _ => exact absurd ho hov
        | step _ c f ho _ _ _ _ => exact absurd ho hov

/-- Claim C8 — `BloomTree::query` returns exactly the file names emitted on
depth-first root-to-leaf paths along which every visited node overlaps the
query range — overlap being `(qEnd empty ∨ startKey ≤ qEnd) ∧ (qStart empty ∨
endKey ≥ qStart)` — and tests filter-positive; a node failing either test
contributes nothing from its entire subtree (no `ReachEmit` derivation passes
through it). -/
theorem query_iff_reachEmit (hash : HashF) (root : Node)
    (value qStart qEnd f : Str) :
    f ∈ BloomTree.query hash root value qStart qEnd ↔
      ReachEmit hash value qStart qEnd root f :=
  search_iff_reachEmit hash value qStart qEnd root f

theorem dfsMC_eq (hash : HashF) (storage : Storage) (values : List Str)
    (combo : Combo) :
    dfsMC hash storage values combo =
      if combo.rangeEnd < combo.rangeStart then ([], 0)
      else if combo.nodes.all (fun nd => nd.filename ≠ memoryTag) then
        finalSstScanAndIntersect storage combo values
      else
        match buildOpts hash combo.nodes values combo.rangeStart combo.rangeEnd with
        | none => ([], 0)
        | some opts =>
          combineOuts (((backtrack opts combo.rangeStart combo.rangeEnd).attach).map
            (fun x => dfsMC hash storage values ⟨x.1.1, x.1.2.1, x.1.2.2⟩)) := by
  rw [dfsMC]
  by_cases h1 : combo.rangeEnd < combo.rangeStart
  · rw [if_pos h1, if_pos h1]
  · rw [if_neg h1, if_neg h1]
    by_cases h2 : (combo.nodes.all fun nd => decide (nd.filename ≠ memoryTag)) = true
    · rw [dif_pos h2, if_pos h2]
    · rw [dif_neg h2, if_neg h2]
      rcases hb2 : buildOpts hash combo.nodes values combo.rangeStart combo.rangeEnd
        with _ | opts
      · simp only [hb2]
      · simp only [hb2]

theorem combineOuts_mem {key : Str} :
    ∀ (l : List (List Str × Nat)), key ∈ (combineOuts l).1 ↔ ∃ p ∈ l, key ∈ p.1
  | [] => by simp [combineOuts]
  | p :: rest => by
    have : (combineOuts (p :: rest)).1 = p.1 ++ (combineOuts rest).1 := rfl
    rw [this]
    simp only [List.mem_append, combineOuts_mem rest, List.mem_cons]
    constructor
    · rintro (h | ⟨q, hq, hk⟩)
      · exact ⟨p, Or.inl rfl, h⟩
      · exact ⟨q, Or.inr hq, hk⟩
    · rintro ⟨q, hq | hq, hk⟩
      · exact Or.inl (hq ▸ hk)
      · exact Or.inr ⟨q, hq, hk⟩

theorem rootCheck_all {hash : HashF} :
    ∀ {roots : List Node} {values : List Str},
      roots.length = values.length →
      (∀ p ∈ roots.zip values, p.1.bloom.bexists hash p.2 = true) →
      rootCheck hash roots values = (roots.length, true)
  | [], [], _, _ => rfl
  | [], _ :: _, h, _ => by simp at h
  | _ :: _, [], h, _ => by simp at h
  | nd :: restN, v :: restV, h, hall => by
    have hnd := hall (nd, v) (by simp)
    show (if nd.bloom.bexists hash v then
        ((rootCheck hash restN restV).1 + 1, (rootCheck hash restN restV).2)
      else (1, false)) = _
    rw [if_pos hnd, rootCheck_all (by simpa using h)
      (fun p hp => hall p (List.mem_cons_of_mem _ hp))]
    simp

theorem rootCheck_miss {hash : HashF} :
    ∀ {roots : List Node} {values : List Str},
      (∃ p ∈ roots.zip values, p.1.bloom.bexists hash p.2 = false) →
      (rootCheck hash roots values).2 = false
  | [], values, h => by simp at h
  | _ :: _, [], h => by simp at h
  | nd :: restN, v :: restV, ⟨p, hp, hmiss⟩ => by
    show (if nd.bloom.bexists hash v then
        ((rootCheck hash restN restV).1 + 1, (rootCheck hash restN restV).2)
      else (1, false)).2 = false
    rcases List.mem_cons.mp hp with heq | hmem
    · subst heq
      rw [if_neg (by simp [hmiss])]
    · by_cases hnd : nd.bloom.bexists hash v = true
      · rw [if_pos hnd]
        exact rootCheck_miss ⟨p, hmem, hmiss⟩
      · rw [if_neg hnd]

theorem rootCheck_fst_le {hash : HashF} :
    ∀ (roots : List Node) (values : List Str),
      (rootCheck hash roots values).1 ≤ roots.length
  | [], _ => by simp [rootCheck]
  | _ :: _, [] => by simp [rootCheck]
  | nd :: restN, v :: restV => by
    show (if nd.bloom.bexists hash v then
        ((rootCheck hash restN restV).1 + 1, (rootCheck hash restN restV).2)
      else (1, false)).1 ≤ restN.length + 1
    by_cases hnd : nd.bloom.bexists hash v = true
    · rw [if_pos hnd]
      have := @rootCheck_fst_le hash restN restV
      simpa using this
    · rw [if_neg hnd]
      simp

theorem getLastD_mem' : ∀ {l : List α}, l ≠ [] → ∀ (d : α), l.getLastD d ∈ l
  | [], h, _ => absurd rfl h
  | [x], _, d => by simp
  | x :: y :: rest, _, d => by
    rw [show (x :: y :: rest).getLastD d = (y :: rest).getLastD d from rfl]
    exact List.mem_cons_of_mem x (getLastD_mem' (by simp) d)

theorem mem_dropWhile_seek {a : Str} :
    ∀ {l : List (Str × Str)}, l.Pairwise (fun p q => p.1 ≤ q.1) →
      ∀ {rc : Str × Str},
        rc ∈ l.dropWhile (fun rc => decide (a ≠ []) && decide (rc.1 < a)) ↔
          rc ∈ l ∧ (a = [] ∨ a ≤ rc.1) := by
  intro l
  induction l with
  | nil => simp
  | cons x rest ih =>
    intro hsort rc
    have hx := (List.pairwise_cons.mp hsort).1
    have hrest := (List.pairwise_cons.mp hsort).2
    rw [List.dropWhile_cons]
    by_cases hP : (decide (a ≠ []) && decide (x.1 < a)) = true
    · rw [if_pos hP]
      simp only [Bool.and_eq_true, decide_eq_true_eq] at hP
      rw [ih hrest]
      simp only [List.mem_cons]
      constructor
      · rintro ⟨hm, hc⟩
        exact ⟨Or.inr hm, hc⟩
      · rintro ⟨hm | hm, hc⟩
        · subst hm
          rcases hc with hc | hc
          · exact absurd hc hP.1
          · exact absurd hP.2 (not_lt_of_le hc)
        · exact ⟨hm, hc⟩
    · rw [if_neg hP]
      simp only [Bool.and_eq_true, decide_eq_true_eq, not_and, not_lt] at hP
      constructor
      · intro hm
        refine ⟨hm, ?_⟩
        by_cases ha : a = []
        · exact Or.inl ha
        · refine Or.inr ?_
          have hax := hP ha
          rcases List.mem_cons.mp hm with heq | hmem
          · exact heq ▸ hax
          · exact le_trans hax (hx rc hmem)
      · rintro ⟨hm, _⟩
        exact hm

theorem mem_takeWhile_stop {b : Str} :
    ∀ {l : List (Str × Str)}, l.Pairwise (fun p q => p.1 ≤ q.1) →
      ∀ {rc : Str × Str},
        rc ∈ l.takeWhile (fun rc => decide (b = []) || decide (rc.1 ≤ b)) ↔
          rc ∈ l ∧ (b = [] ∨ rc.1 ≤ b) := by
  intro l
  induction l with
  | nil => simp
  | cons x rest ih =>
    intro hsort rc
    have hx := (List.pairwise_cons.mp hsort).1
    have hrest := (List.pairwise_cons.mp hsort).2
    rw [List.takeWhile_cons]
    by_cases hQ : (decide (b = []) || decide (x.1 ≤ b)) = true
    · rw [if_pos hQ]
      simp only [Bool.or_eq_true, decide_eq_true_eq] at hQ
      simp only [List.mem_cons, ih hrest]
      constructor
      · rintro (heq | ⟨hm, hc⟩)
        · subst heq
          exact ⟨Or.inl rfl, hQ⟩
        · exact ⟨Or.inr hm, hc⟩
      · rintro ⟨heq | hm, hc⟩
        · exact Or.inl heq
        · exact Or.inr ⟨hm, hc⟩
    · rw [if_neg hQ]
      simp only [Bool.or_eq_true, decide_eq_true_eq, not_or] at hQ
      constructor
      · intro hm
        exact absurd hm (List.not_mem_nil rc)
      · rintro ⟨hm, hc⟩
        rcases hc with hc | hc
        · exact absurd hc hQ.1
        · rcases List.mem_cons.mp hm with heq | hmem
          · exact absurd (heq ▸ hc) hQ.2
          · exact absurd (le_trans (hx rc hmem) hc) hQ.2

theorem scanFile_mem_iff {storage : Storage} {f v a b key : Str}
    (hsort : (storage f).Pairwise (fun p q => p.1 ≤ q.1)) :
    key ∈ scanFileForKeysWithValue storage f v a b ↔
      ∃ rc ∈ storage f, rc.1 = key ∧ rc.2 = v ∧
        (a = [] ∨ a ≤ key) ∧ (b = [] ∨ key ≤ b) := by
  unfold scanFileForKeysWithValue
  simp only [List.mem_map, List.mem_filter, decide_eq_true_eq]
  have hdropsort : ((storage f).dropWhile
      (fun rc => decide (a ≠ []) && decide (rc.1 < a))).Pairwise
      (fun p q => p.1 ≤ q.1) :=
    List.Pairwise.sublist (List.dropWhile_sublist _) hsort
  constructor
  · rintro ⟨rc, ⟨hm, hv⟩, rfl⟩
    obtain ⟨hm2, hb⟩ := (mem_takeWhile_stop hdropsort).mp hm
    obtain ⟨hm3, ha⟩ := (mem_dropWhile_seek hsort).mp hm2
    exact ⟨rc, hm3, rfl, hv, ha, hb⟩
  · rintro ⟨rc, hm, rfl, hv, ha, hb⟩
    refine ⟨rc, ⟨?_, hv⟩, rfl⟩
    exact (mem_takeWhile_stop hdropsort).mpr
      ⟨(mem_dropWhile_seek hsort).mpr ⟨hm, ha⟩, hb⟩

theorem run_bounds :
    ∀ {run : List (Str × Str)}, run.Pairwise (fun p q => p.1 ≤ q.1) →
      ∀ {rc : Str × Str}, rc ∈ run →
        ((run.map Prod.fst).headD []) ≤ rc.1 ∧
          rc.1 ≤ ((run.map Prod.fst).getLastD []) := by
  intro run
  induction run with
  | nil =>
    intro _ rc hrc
    exact absurd hrc (List.not_mem_nil rc)
  | cons x rest ih =>
    intro hsort rc hrc
    have hx := (List.pairwise_cons.mp hsort).1
    have hrest := (List.pairwise_cons.mp hsort).2
    constructor
    · show x.1 ≤ rc.1
      rcases List.mem_cons.mp hrc with heq | hmem
      · exact heq ▸ le_refl _
      · exact hx rc hmem
    · match hr : rest with
      | [] =>
        rcases List.mem_cons.mp hrc with heq | hmem
        · subst heq
          simp
        · exact absurd hmem (List.not_mem_nil rc)
      | y :: rest' =>
        rw [show ((x :: y :: rest').map Prod.fst).getLastD [] =
          ((y :: rest').map Prod.fst).getLastD [] from rfl]
        rcases List.mem_cons.mp hrc with heq | hmem
        · subst heq
          have hlast : ((y :: rest').map Prod.fst).getLastD [] ∈
              (y :: rest').map Prod.fst := getLastD_mem' (by simp) []
          rcases List.mem_map.mp hlast with ⟨q, hq, hql⟩
          rw [← hql]
          exact hx q hq
        · exact (ih hrest hmem).2

theorem str_le_nil_eq {s : Str} (h : s ≤ ([] : Str)) : s = [] :=
  le_antisymm h List.nil_le

theorem forall₂_compose {α β γ : Type} {P : α → γ → Prop} {Q : α → β → Prop}
    {R : β → γ → Prop} (h : ∀ a b c, P a c → Q a b → R b c) :
    ∀ {xs : List α} {ys : List β} {zs : List γ},
      List.Forall₂ P xs zs → List.Forall₂ Q xs ys → List.Forall₂ R ys zs := by
  intro xs ys zs h1
  induction h1 generalizing ys with
  | nil =>
    intro h2
    cases h2
    exact List.Forall₂.nil
  | cons hh ht ih =>
    intro h2
    cases h2 with
    | cons hh2 ht2 => exact List.Forall₂.cons (h _ _ _ hh hh2) (ih ht2)

theorem forall₂_mem_left {α β : Type} {R : α → β → Prop} :
    ∀ {xs : List α} {ys : List β}, List.Forall₂ R xs ys →
      ∀ {a : α}, a ∈ xs → ∃ b ∈ ys, R a b := by
  intro xs ys h
  induction h with
  | nil =>
    intro a ha
    exact absurd ha (List.not_mem_nil a)
  | @cons x y xs' ys' hh _ ih =>
    intro a ha
    rcases List.mem_cons.mp ha with heq | hmem
    · exact ⟨y, List.mem_cons_self y ys', heq ▸ hh⟩
    · obtain ⟨b, hb, hr⟩ := ih hmem
      exact ⟨b, List.mem_cons_of_mem y hb, hr⟩

theorem forall₂_mem_right {α β : Type} {R : α → β → Prop} :
    ∀ {xs : List α} {ys : List β}, List.Forall₂ R xs ys →
      ∀ {b : β}, b ∈ ys → ∃ a ∈ xs, R a b := by
  intro xs ys h
  induction h with
  | nil =>
    intro b hb
    exact absurd hb (List.not_mem_nil b)
  | @cons x y xs' ys' hh _ ih =>
    intro b hb
    rcases List.mem_cons.mp hb with heq | hmem
    · exact ⟨x, List.mem_cons_self x xs', heq ▸ hh⟩
    · obtain ⟨a, ha, hr⟩ := ih hmem
      exact ⟨a, List.mem_cons_of_mem x ha, hr⟩

theorem forall₂_and_left {α β : Type} {R : α → β → Prop} {A : α → Prop} :
    ∀ {xs : List α} {ys : List β}, List.Forall₂ R xs ys →
      (∀ x ∈ xs, A x) → List.Forall₂ (fun x y => R x y ∧ A x) xs ys := by
  intro xs ys h
  induction h with
  | nil => exact fun _ => List.Forall₂.nil
  | @cons x y xs' ys' hh _ ih =>
    intro hA
    exact List.Forall₂.cons ⟨hh, hA x (List.mem_cons_self x xs')⟩
      (ih (fun z hz => hA z (List.mem_cons_of_mem x hz)))

theorem mapM_option_forall₂ {α β : Type} {f : α → Option β} :
    ∀ {l : List α} {l' : List β}, l.mapM f = some l' →
      List.Forall₂ (fun a b => f a = some b) l l'
  | [], l', h => by
    simp only [List.mapM_nil, Option.pure_def, Option.some.injEq] at h
    subst h
    exact List.Forall₂.nil
  | a :: l, l', h => by
    simp only [List.mapM_cons, Option.pure_def, Option.bind_eq_bind,
      Option.bind_eq_some, Option.some.injEq] at h
    obtain ⟨b, hfa, bs, hml, heq⟩ := h
    subst heq
    exact List.Forall₂.cons hfa (mapM_option_forall₂ hml)

theorem foldl_max_le_of [LinearOrder α] :
    ∀ (l : List β) (f : β → α) (a c : α), a ≤ c → (∀ x ∈ l, f x ≤ c) →
      l.foldl (fun y d => max y (f d)) a ≤ c
  | [], _, _, _, ha, _ => ha
  | x :: rest, f, a, c, ha, hall => by
    rw [List.foldl_cons]
    exact foldl_max_le_of rest f (max a (f x)) c
      (max_le ha (hall x (List.mem_cons_self x rest)))
      (fun y hy => hall y (List.mem_cons_of_mem x hy))

theorem le_foldl_min_of [LinearOrder α] :
    ∀ (l : List β) (f : β → α) (a c : α), c ≤ a → (∀ x ∈ l, c ≤ f x) →
      c ≤ l.foldl (fun y d => min y (f d)) a
  | [], _, _, _, ha, _ => ha
  | x :: rest, f, a, c, ha, hall => by
    rw [List.foldl_cons]
    exact le_foldl_min_of rest f (min a (f x)) c
      (le_min ha (hall x (List.mem_cons_self x rest)))
      (fun y hy => hall y (List.mem_cons_of_mem x hy))

theorem allNodes_leaf {n : Node} (h : n.children = []) : n.allNodes = [n] := by
  rw [Node.allNodes_eq, h]
  rfl

theorem mem_leavesList_of {n L : Node} (h1 : L ∈ n.allNodes)
    (h2 : L.children = []) : L ∈ n.leavesList :=
  List.mem_filter.mpr ⟨h1, by simp [h2]⟩

theorem childrenOrSelf_sub_allNodes {c nd : Node} (h : c ∈ childrenOrSelf nd) :
    c ∈ nd.allNodes := by
  unfold childrenOrSelf at h
  split at h
  · exact Node.mem_allNodes_of_child h c.self_mem_allNodes
  · simp only [List.mem_singleton] at h
    exact h ▸ nd.self_mem_allNodes

theorem goodTree_attained {m k : Nat} : ∀ {n : Node}, GoodTree m k n →
    (∃ L ∈ n.leavesList, L.startKey = n.startKey) ∧
    (∃ L ∈ n.leavesList, L.endKey = n.endKey) := by
  intro n
  induction n using Node.allNodes.induct with
  | _ n ih =>
    intro hg
    by_cases hch : n.children = []
    · rw [leavesList_leaf hch]
      exact ⟨⟨n, List.mem_singleton.mpr rfl, rfl⟩,
        ⟨n, List.mem_singleton.mpr rfl, rfl⟩⟩
    · have hloc := hg.localOK.2.2.2.2 hch
      obtain ⟨cs', hcs', hseq⟩ := hloc.2.2.1
      obtain ⟨ce', hce', heeq⟩ := hloc.2.2.2.1
      constructor
      · obtain ⟨L, hL, hLs⟩ := (ih ⟨cs', hcs'⟩ (hg.child hcs')).1
        exact ⟨L, mem_leavesList_of
          (Node.mem_allNodes_of_child hcs' (mem_leavesList hL).1)
          (mem_leavesList hL).2, hLs.trans hseq⟩
      · obtain ⟨L, hL, hLe⟩ := (ih ⟨ce', hce'⟩ (hg.child hce')).2
        exact ⟨L, mem_leavesList_of
          (Node.mem_allNodes_of_child hce' (mem_leavesList hL).1)
          (mem_leavesList hL).2, hLe.trans heeq⟩

theorem finalScan_mem {storage : Storage} {combo : Combo} {values : List Str}
    {key : Str} (hne : combo.nodes ≠ []) (hvne : values ≠ []) :
    key ∈ (finalSstScanAndIntersect storage combo values).1 ↔
      ∀ p ∈ combo.nodes.zip values,
        key ∈ scanFileForKeysWithValue storage p.1.filename p.2
          (max combo.rangeStart p.1.startKey) (min combo.rangeEnd p.1.endKey) := by
  rcases hn : combo.nodes with _ | ⟨n0, restN⟩
  · exact absurd hn hne
  rcases hv : values with _ | ⟨v0, restV⟩
  · exact absurd hv hvne
  simp only [finalSstScanAndIntersect, hn, hv, List.zip_cons_cons, List.map_cons]
  rw [List.mem_filter, List.mem_dedup, List.all_eq_true]
  constructor
  · rintro ⟨h0, hrest⟩ p hp
    rcases List.mem_cons.mp hp with heq | hmem
    · subst heq
      exact h0
    · exact of_decide_eq_true
        (hrest _ (List.mem_map_of_mem _ hmem))
  · intro hall
    refine ⟨hall (n0, v0) (List.mem_cons_self _ _), fun s hs => ?_⟩
    obtain ⟨p, hp, rfl⟩ := List.mem_map.mp hs
    exact decide_eq_true (hall p (List.mem_cons_of_mem _ hp))

/-- The witness a column carries down the DFS: the column's subtree is a
built tree and some descendant leaf range-covers `key`, filter-accepts `v`,
and its source file stores the record `(key, v)`. -/
def ColWitness (storage : Storage) (hash : HashF) (m k : Nat) (key v : Str)
    (nd : Node) : Prop :=
  GoodTree m k nd ∧ ∃ L ∈ nd.allNodes, L.children = [] ∧
    L.startKey ≤ key ∧ key ≤ L.endKey ∧ L.bloom.bexists hash v = true ∧
    ∃ rc ∈ storage L.filename, rc.1 = key ∧ rc.2 = v

theorem colWitness_node_bounds {storage : Storage} {hash : HashF} {m k : Nat}
    {key v : Str} {nd : Node} (h : ColWitness storage hash m k key v nd) :
    nd.startKey ≤ key ∧ key ≤ nd.endKey ∧ nd.bloom.bexists hash v = true := by
  obtain ⟨hg, L, hL, _, hLs, hLe, hLb, _⟩ := h
  have hr := goodTree_range hg hL
  exact ⟨le_trans hr.1 hLs, le_trans hLe hr.2, goodTree_bexists hg hL hLb⟩

theorem colWitness_childrenOrSelf {storage : Storage} {hash : HashF}
    {m k : Nat} {key v : Str} {nd : Node}
    (h : ColWitness storage hash m k key v nd) :
    ∃ c ∈ childrenOrSelf nd, ColWitness storage hash m k key v c := by
  obtain ⟨hg, L, hL, hLc, hLs, hLe, hLb, hrc⟩ := h
  unfold childrenOrSelf
  by_cases htag : nd.filename = memoryTag
  · rw [if_pos htag]
    rcases Node.mem_allNodes_iff.mp hL with heq | ⟨c, hc, hL'⟩
    · subst heq
      exact absurd htag (hg.localOK.2.2.2.1 hLc)
    · exact ⟨c, hc, hg.child hc, L, hL', hLc, hLs, hLe, hLb, hrc⟩
  · rw [if_neg htag]
    exact ⟨nd, List.mem_singleton.mpr rfl, hg, L, hL, hLc, hLs, hLe, hLb, hrc⟩

theorem mem_considerList_of {hash : HashF} {v tS tE : Str} {cands : List Node}
    {c : Node} (hc : c ∈ cands) (h1 : tS ≤ c.endKey) (h2 : c.startKey ≤ tE)
    (hb : c.bloom.bexists hash v = true) :
    c ∈ considerList hash v tS tE cands := by
  refine List.mem_filter.mpr ⟨hc, ?_⟩
  simp only [Bool.and_eq_true, Bool.not_eq_true', Bool.or_eq_false_iff,
    decide_eq_false_iff_not, not_lt]
  exact ⟨⟨h1, h2⟩, hb⟩

theorem colWitness_final_scan {storage : Storage} {hash : HashF} {m k : Nat}
    {key v : Str} {nd : Node} {cs ce : Str}
    (hcw : ColWitness storage hash m k key v nd)
    (hfn : nd.filename ≠ memoryTag) (hks : cs ≤ key) (hke : key ≤ ce)
    (hsort : (storage nd.filename).Pairwise (fun p q => p.1 ≤ q.1)) :
    key ∈ scanFileForKeysWithValue storage nd.filename v
      (max cs nd.startKey) (min ce nd.endKey) := by
  obtain ⟨hg, L, hL, hLc, hLs, hLe, hLb, rc, hrc, hrk, hrv⟩ := hcw
  have hch : nd.children = [] := by
    by_contra hch
    exact hfn (hg.localOK.2.2.2.2 hch).1
  rw [allNodes_leaf hch, List.mem_singleton] at hL
  subst hL
  exact (scanFile_mem_iff hsort).mpr
    ⟨rc, hrc, hrk, hrv, Or.inr (max_le hks hLs), Or.inr (le_min hke hLe)⟩

theorem backtrack_range_mono :
    ∀ {opts : List (List Node)} {s e : Str} {x : List Node × Str × Str},
      x ∈ backtrack opts s e → s ≤ x.2.1 ∧ x.2.2 ≤ e
  | [], s, e, x, h => by
    simp only [backtrack, List.mem_singleton] at h
    subst h
    exact ⟨le_refl _, le_refl _⟩
  | o :: rest, s, e, x, h => by
    simp only [backtrack, List.mem_flatten, List.mem_map] at h
    obtain ⟨l, ⟨cand, hcand, hl⟩, hx⟩ := h
    subst hl
    split at hx
    · simp only [List.mem_map] at hx
      obtain ⟨rc, hrc, hx⟩ := hx
      subst hx
      have := backtrack_range_mono hrc
      exact ⟨le_trans (le_max_left _ _) this.1,
        le_trans this.2 (min_le_left _ _)⟩
    · exact absurd hx (List.not_mem_nil x)

theorem buildOpts_complete {storage : Storage} {hash : HashF} {m k : Nat}
    {key : Str} {nodes : List Node} {values : List Str}
    (hfa : List.Forall₂ (fun nd v => ColWitness storage hash m k key v nd)
      nodes values) :
    ∀ {tS tE : Str}, tS ≤ key → key ≤ tE →
      ∃ opts, buildOpts hash nodes values tS tE = some opts ∧
        List.Forall₂ (fun o v => ∃ c ∈ o, ColWitness storage hash m k key v c)
          opts values := by
  induction hfa with
  | nil =>
    intro tS tE _ _
    exact ⟨[], rfl, List.Forall₂.nil⟩
  | @cons nd v nodes' values' hh ht ih =>
    intro tS tE hts hte
    obtain ⟨c, hcmem, hcw⟩ := colWitness_childrenOrSelf hh
    have hcb := colWitness_node_bounds hcw
    have hcin : c ∈ considerList hash v tS tE (childrenOrSelf nd) :=
      mem_considerList_of hcmem (le_trans hts hcb.2.1) (le_trans hcb.1 hte)
        hcb.2.2
    rcases hcands : considerList hash v tS tE (childrenOrSelf nd)
      with _ | ⟨c0, cs0⟩
    · rw [hcands] at hcin
      exact absurd hcin (List.not_mem_nil c)
    rw [hcands] at hcin
    rcases nodes' with _ | ⟨n1, ns1⟩
    · cases ht
      refine ⟨[c0 :: cs0], ?_, ?_⟩
      · simp only [buildOpts, hcands]
      · exact List.Forall₂.cons ⟨c, hcin, hcw⟩ List.Forall₂.nil
    · have hts' : max tS ((c0 :: cs0).foldl (fun a d => min a d.startKey)
          c0.startKey) ≤ key :=
        max_le hts (le_trans (foldl_min_le_mem _ _ _ c hcin) hcb.1)
    
      have hte' : key ≤ min tE ((c0 :: cs0).foldl (fun a d => max a d.endKey)
          c0.endKey) :=
        le_min hte (le_trans hcb.2.1 (foldl_max_le_mem _ _ _ c hcin))
      obtain ⟨opts', heq', hfa'⟩ := ih hts' hte'
      refine ⟨(c0 :: cs0) :: opts', ?_, ?_⟩
      · simp only [buildOpts, hcands]
        rw [if_neg (not_lt_of_le (le_trans hts' hte')), heq']
        rfl
      · exact List.Forall₂.cons ⟨c, hcin, hcw⟩ hfa'

theorem backtrack_complete {storage : Storage} {hash : HashF} {m k : Nat}
    {key : Str} {opts : List (List Node)} {values : List Str}
    (hfa : List.Forall₂ (fun o v => ∃ c ∈ o,
      ColWitness storage hash m k key v c) opts values) :
    ∀ {s e : Str}, s ≤ key → key ≤ e →
      ∃ x ∈ backtrack opts s e,
        List.Forall₂ (fun c v => ColWitness storage hash m k key v c)
          x.1 values ∧ x.2.1 ≤ key ∧ key ≤ x.2.2 := by
  induction hfa with
  | nil =>
    intro s e hs he
    exact ⟨([], s, e), List.mem_singleton.mpr rfl, List.Forall₂.nil, hs, he⟩
  | @cons o v opts' values' hh ht ih =>
    intro s e hs he
    obtain ⟨c, hc, hcw⟩ := hh
    have hcb := colWitness_node_bounds hcw
    have hns : max s c.startKey ≤ key := max_le hs hcb.1
    have hne : key ≤ min e c.endKey := le_min he hcb.2.1
    obtain ⟨rc, hrc, hfa', hrs, hre⟩ := ih hns hne
    refine ⟨(c :: rc.1, rc.2.1, rc.2.2), ?_, List.Forall₂.cons hcw hfa', hrs,
      hre⟩
    simp only [backtrack, List.mem_flatten, List.mem_map]
    refine ⟨(backtrack opts' (max s c.startKey) (min e c.endKey)).map
      (fun rc => (c :: rc.1, rc.2.1, rc.2.2)), ⟨c, hc, ?_⟩, ?_⟩
    · rw [if_pos (le_trans hns hne)]
    · exact List.mem_map.mpr ⟨rc, hrc, rfl⟩

theorem dfsMC_complete {hash : HashF} {storage : Storage} {m k : Nat}
    {key : Str}
    (hsort : ∀ f, (storage f).Pairwise (fun p q => p.1 ≤ q.1))
    (combo : Combo) (values : List Str)
    (hfa : List.Forall₂ (fun nd v => ColWitness storage hash m k key v nd)
      combo.nodes values)
    (hne : combo.nodes ≠ [])
    (hks : combo.rangeStart ≤ key) (hke : key ≤ combo.rangeEnd) :
    key ∈ (dfsMC hash storage values combo).1 := by
  have hvne : values ≠ [] := fun hv => hne
    (List.eq_nil_of_length_eq_zero (by rw [hfa.length_eq, hv]; rfl))
  rw [dfsMC_eq]
  rw [if_neg (not_lt_of_le (le_trans hks hke))]
  by_cases h2 :
      (combo.nodes.all fun nd => decide (nd.filename ≠ memoryTag)) = true
  · rw [if_pos h2]
    refine (finalScan_mem hne hvne).mpr ?_
    intro p hp
    have hpz : (p.1, p.2) ∈ combo.nodes.zip values := by
      rw [Prod.mk.eta]
      exact hp
    have hcw := (List.forall₂_iff_zip.mp hfa).2 hpz
    have hfn : p.1.filename ≠ memoryTag :=
      of_decide_eq_true (List.all_eq_true.mp h2 p.1 (List.of_mem_zip hpz).1)
    exact colWitness_final_scan hcw hfn hks hke (hsort _)
  · rw [if_neg h2]
    obtain ⟨opts, hb, hfa2⟩ := buildOpts_complete hfa hks hke
    simp only [hb]
    obtain ⟨x, hx, hfa3, hxs, hxe⟩ := backtrack_complete hfa2 hks hke
    refine (combineOuts_mem _).mpr
      ⟨dfsMC hash storage values ⟨x.1, x.2.1, x.2.2⟩,
        List.mem_map.mpr ⟨⟨x, hx⟩, List.mem_attach _ _, rfl⟩, ?_⟩
    have hne' : x.1 ≠ [] := fun hx1 => hvne
      (List.eq_nil_of_length_eq_zero (by rw [← hfa3.length_eq, hx1]; rfl))
    exact dfsMC_complete hsort ⟨x.1, x.2.1, x.2.2⟩ values hfa3 hne' hxs hxe
termination_by (combo.nodes.map sizeOf).sum
decreasing_by
  refine backtrack_measure_lt hb ?_ x hx
  simp only [List.all_eq_true, decide_not, not_forall] at h2
  obtain ⟨nd, hnd, htag⟩ := h2
  refine ⟨nd, hnd, ?_⟩
  simpa using htag

theorem dfsMC_sound {hash : HashF} {storage : Storage} {key : Str}
    (hsort : ∀ f, (storage f).Pairwise (fun p q => p.1 ≤ q.1))
    (combo : Combo) (values : List Str)
    (hend : ∀ nd ∈ combo.nodes, ∀ d ∈ nd.allNodes, d.endKey ≠ [])
    (hcs : combo.rangeStart ≠ [])
    (hlen : combo.nodes.length = values.length)
    (hmem : key ∈ (dfsMC hash storage values combo).1) :
    combo.rangeStart ≤ key ∧ key ≤ combo.rangeEnd ∧
      List.Forall₂ (fun nd v => ∃ L ∈ nd.allNodes, L.filename ≠ memoryTag ∧
        ∃ rc ∈ storage L.filename, rc.1 = key ∧ rc.2 = v)
        combo.nodes values := by
  rw [dfsMC_eq] at hmem
  by_cases h1 : combo.rangeEnd < combo.rangeStart
  · rw [if_pos h1] at hmem
    exact absurd hmem (List.not_mem_nil key)
  rw [if_neg h1] at hmem
  have hse : combo.rangeStart ≤ combo.rangeEnd := le_of_not_lt h1
  by_cases h2 :
      (combo.nodes.all fun nd => decide (nd.filename ≠ memoryTag)) = true
  · rw [if_pos h2] at hmem
    rcases hn : combo.nodes with _ | ⟨n0, restN⟩
    · simp only [finalSstScanAndIntersect, hn, List.zip_nil_left,
        List.map_nil] at hmem
      exact absurd hmem (List.not_mem_nil key)
    rcases hv : values with _ | ⟨v0, restV⟩
    · rw [hn, hv] at hlen
      simp at hlen
    have hall := (finalScan_mem
      (by rw [hn]; exact List.cons_ne_nil _ _)
      (by rw [hv]; exact List.cons_ne_nil _ _)).mp hmem
    rw [hn, hv] at hall hlen
    have hp0 : ((n0 : Node), v0) ∈ (n0 :: restN).zip (v0 :: restV) := by
      rw [List.zip_cons_cons]
      exact List.mem_cons_self _ _
    obtain ⟨rc0, hrc0, hrk0, hrv0, hga0, hgb0⟩ :=
      (scanFile_mem_iff (hsort _)).mp (hall _ hp0)
    have hn0end : n0.endKey ≠ [] :=
      hend n0 (by rw [hn]; exact List.mem_cons_self _ _) n0
        n0.self_mem_allNodes
    have hlow : combo.rangeStart ≤ key := by
      rcases hga0 with hnil | hle
      · exact absurd (str_le_nil_eq (hnil ▸ le_max_left _ _)) hcs
      · exact le_trans (le_max_left _ _) hle
    have hhigh : key ≤ combo.rangeEnd := by
      rcases hgb0 with hnil | hle
      · rcases min_choice combo.rangeEnd n0.endKey with hmin | hmin
        · rw [hmin] at hnil
          exact absurd (str_le_nil_eq (hnil ▸ hse)) hcs
        · rw [hmin] at hnil
          exact absurd hnil hn0end
      · exact le_trans hle (min_le_left _ _)
    refine ⟨hlow, hhigh, List.forall₂_iff_zip.mpr ⟨hlen, ?_⟩⟩
    intro a b hab
    obtain ⟨rc, hrc, hrk, hrv, _, _⟩ :=
      (scanFile_mem_iff (hsort _)).mp (hall _ hab)
    have hfn : a.filename ≠ memoryTag :=
      of_decide_eq_true (List.all_eq_true.mp h2 a
        (by rw [hn]; exact (List.of_mem_zip hab).1))
    exact ⟨a, a.self_mem_allNodes, hfn, rc, hrc, hrk, hrv⟩
  · rw [if_neg h2] at hmem
    rcases hb : buildOpts hash combo.nodes values combo.rangeStart
        combo.rangeEnd with _ | opts
    · rw [hb] at hmem
      exact absurd hmem (List.not_mem_nil key)
    rw [hb] at hmem
    obtain ⟨p, hp, hkp⟩ := (combineOuts_mem _).mp hmem
    obtain ⟨⟨x, hx⟩, _, hfx⟩ := List.mem_map.mp hp
    subst hfx
    have hcos : List.Forall₂ (fun c nd => c ∈ childrenOrSelf nd) x.1
        combo.nodes :=
      forall₂_mem_childrenOrSelf (backtrack_mem_forall₂ hx)
        (buildOpts_forall₂ hb)
    have hrange := backtrack_range_mono hx
    have hend' : ∀ nd ∈ x.1, ∀ d ∈ nd.allNodes, d.endKey ≠ [] := by
      intro c hc d hd
      obtain ⟨ndp, hndp, hmcs⟩ := forall₂_mem_left hcos hc
      exact hend ndp hndp d
        (Node.allNodes_trans hd (childrenOrSelf_sub_allNodes hmcs))
    have hcs' : x.2.1 ≠ [] := by
      intro hx1
      exact hcs (str_le_nil_eq (hx1 ▸ hrange.1))
    have hlen' : x.1.length = values.length := by
      rw [(backtrack_mem_forall₂ hx).length_eq,
        (buildOpts_forall₂ hb).length_eq, hlen]
    obtain ⟨hxs, hxe, hfa'⟩ :=
      dfsMC_sound hsort ⟨x.1, x.2.1, x.2.2⟩ values hend' hcs' hlen' hkp
    refine ⟨le_trans hrange.1 hxs, le_trans hxe hrange.2, ?_⟩
    refine forall₂_compose ?_ hfa' hcos
    intro c nd v hP hQ
    obtain ⟨L, hL, hLf, hLr⟩ := hP
    exact ⟨L, Node.allNodes_trans hL (childrenOrSelf_sub_allNodes hQ), hLf,
      hLr⟩
termination_by (combo.nodes.map sizeOf).sum
decreasing_by
  refine backtrack_measure_lt hb ?_ x hx
  simp only [List.all_eq_true, decide_not, not_forall] at h2
  obtain ⟨nd, hnd, htag⟩ := h2
  refine ⟨nd, hnd, ?_⟩
  simpa using htag

theorem leaf_of_built {hash : HashF} {storage : Storage} {m k N r fuel : Nat}
    {files : List Str} {root L : Node} (hN : 1 ≤ N)
    (hF : ∀ f ∈ files, f ≠ memoryTag)
    (hroot : buildColumn hash storage m k N r fuel files = some root)
    (hL : L ∈ root.leavesList) :
    ∃ f ∈ files, ∃ run ∈ chunksTake N (storage f), L = mkLeaf hash m k f run := by
  obtain ⟨_, hleaves⟩ := buildColumn_good hN hF hroot
  rw [hleaves] at hL
  obtain ⟨l, hl, hLl⟩ := List.mem_flatten.mp hL
  obtain ⟨f, hf, hfl⟩ := List.mem_map.mp hl
  subst hfl
  rw [(processSSTFile_spec hash m k N f (storage f) hN).1] at hLl
  obtain ⟨run, hrun, hLr⟩ := List.mem_map.mp hLl
  exact ⟨f, hf, run, hrun, hLr.symm⟩

theorem built_keys_ne_nil {hash : HashF} {storage : Storage}
    {m k N r fuel : Nat} {files : List Str} {root : Node} (hN : 1 ≤ N)
    (hkeys : ∀ f, ∀ rc ∈ storage f, rc.1 ≠ [])
    (hF : ∀ f ∈ files, f ≠ memoryTag)
    (hroot : buildColumn hash storage m k N r fuel files = some root) :
    ∀ d ∈ root.allNodes, d.startKey ≠ [] ∧ d.endKey ≠ [] := by
  have hg := (buildColumn_good hN hF hroot).1
  have hleaf : ∀ L ∈ root.leavesList, L.startKey ≠ [] ∧ L.endKey ≠ [] := by
    intro L hLL
    obtain ⟨f, hf, run, hrun, rfl⟩ := leaf_of_built hN hF hroot hLL
    have hrne : run ≠ [] := chunksTake_ne_nil hrun
    constructor
    · show ((run.map Prod.fst).headD []) ≠ []
      rcases hrr : run with _ | ⟨rc0, run'⟩
      · exact absurd hrr hrne
      simp only [List.map_cons, List.headD_cons]
      exact hkeys f rc0 (mem_of_mem_chunksTake hrun
        (by rw [hrr]; exact List.mem_cons_self _ _))
    · show ((run.map Prod.fst).getLastD []) ≠ []
      have hmne : run.map Prod.fst ≠ [] := by
        intro h
        exact hrne (List.map_eq_nil_iff.mp h)
      have hmem := getLastD_mem' hmne ([] : Str)
      obtain ⟨rc, hrc, hrceq⟩ := List.mem_map.mp hmem
      rw [← hrceq]
      exact hkeys f rc (mem_of_mem_chunksTake hrun hrc)
  intro d hd
  obtain ⟨⟨Ls, hLs, hseq⟩, ⟨Le, hLe, heeq⟩⟩ := goodTree_attained (hg.sub hd)
  have hLs2 : Ls ∈ root.leavesList := mem_leavesList_of
    (Node.allNodes_trans (mem_leavesList hLs).1 hd) (mem_leavesList hLs).2
  have hLe2 : Le ∈ root.leavesList := mem_leavesList_of
    (Node.allNodes_trans (mem_leavesList hLe).1 hd) (mem_leavesList hLe).2
  exact ⟨hseq ▸ (hleaf Ls hLs2).1, heeq ▸ (hleaf Le hLe2).2⟩

theorem buildColumn_colWitness {hash : HashF} {storage : Storage}
    {m k N r fuel : Nat} {files : List Str} {root : Node}
    (hm : 1 ≤ m) (hN : 1 ≤ N)
    (hsort : ∀ f, (storage f).Pairwise (fun p q => p.1 ≤ q.1))
    (hF : ∀ f ∈ files, f ≠ memoryTag)
    (hroot : buildColumn hash storage m k N r fuel files = some root)
    {f v key gs ge : Str} (hf : f ∈ files)
    (hscan : key ∈ scanFileForKeysWithValue storage f v gs ge) :
    ColWitness storage hash m k key v root ∧
      (gs = [] ∨ gs ≤ key) ∧ (ge = [] ∨ key ≤ ge) := by
  obtain ⟨hg, hleaves⟩ := buildColumn_good hN hF hroot
  obtain ⟨rc, hrcst, hrk, hrv, hga, hgb⟩ :=
    (scanFile_mem_iff (hsort f)).mp hscan
  have hrc2 : rc ∈ (chunksTake N (storage f)).flatten := by
    rw [chunksTake_flatten]
    exact hrcst
  obtain ⟨run, hrun, hrcrun⟩ := List.mem_flatten.mp hrc2
  have hLmem : mkLeaf hash m k f run ∈ root.leavesList := by
    rw [hleaves]
    refine List.mem_flatten.mpr ⟨processSSTFile hash m k N f (storage f),
      List.mem_map_of_mem _ hf, ?_⟩
    rw [(processSSTFile_spec hash m k N f (storage f) hN).1]
    exact List.mem_map_of_mem _ hrun
  have hsub : run.Sublist (storage f) := by
    have h1 := List.sublist_flatten_of_mem hrun
    rw [chunksTake_flatten] at h1
    exact h1
  have hrs := run_bounds (List.Pairwise.sublist hsub (hsort f)) hrcrun
  refine ⟨⟨hg, mkLeaf hash m k f run, (mem_leavesList hLmem).1, ?_, ?_, ?_,
    ?_, ?_⟩, hga, hgb⟩
  · rfl
  · show (mkLeaf hash m k f run).startKey ≤ key
    simp only [mkLeaf, Node.startKey_mk]
    rw [← hrk]
    exact hrs.1
  · show key ≤ (mkLeaf hash m k f run).endKey
    simp only [mkLeaf, Node.endKey_mk]
    rw [← hrk]
    exact hrs.2
  · show (mkLeaf hash m k f run).bloom.bexists hash v = true
    simp only [mkLeaf, Node.bloom_mk]
    refine BloomFilter.bexists_insertList_of_mem ?_ ?_ ?_
    · simp [BloomFilter.new]
    · simpa [BloomFilter.new] using hm
    · exact List.mem_map.mpr ⟨rc, hrcrun, hrv⟩
  · show ∃ rc' ∈ storage (mkLeaf hash m k f run).filename,
      rc'.1 = key ∧ rc'.2 = v
    simp only [mkLeaf, Node.filename_mk]
    exact ⟨rc, hrcst, hrk, hrv⟩

theorem built_leaf_file {hash : HashF} {storage : Storage}
    {m k N r fuel : Nat} {files : List Str} {root L : Node} (hN : 1 ≤ N)
    (hF : ∀ f ∈ files, f ≠ memoryTag)
    (hroot : buildColumn hash storage m k N r fuel files = some root)
    (hL : L ∈ root.allNodes) (hfn : L.filename ≠ memoryTag) :
    L.filename ∈ files := by
  have hg := (buildColumn_good hN hF hroot).1
  have hch : L.children = [] := by
    by_contra hch
    exact hfn ((hg L hL).2.2.2.2 hch).1
  obtain ⟨f, hf, run, hrun, rfl⟩ :=
    leaf_of_built hN hF hroot (mem_leavesList_of hL hch)
  simpa only [mkLeaf, Node.filename_mk] using hf

theorem forall₂_flip_mem {α β : Type} {R : α → β → Prop} :
    ∀ {xs : List α} {ys : List β}, List.Forall₂ R xs ys →
      List.Forall₂ (fun y x => R x y) ys xs := by
  intro xs ys h
  induction h with
  | nil => exact List.Forall₂.nil
  | cons hh _ ih => exact List.Forall₂.cons hh ih

theorem multiColumnQueryHierarchical_cons (hash : HashF) (storage : Storage)
    (r0 : Node) (restR : List Node) (values : List Str) (gs ge : Str) :
    multiColumnQueryHierarchical hash storage (r0 :: restR) values gs ge =
      if (r0 :: restR).length ≠ values.length then ([], 0, 0)
      else if (rootCheck hash (r0 :: restR) values).2 then
        ((dfsMC hash storage values
            ⟨r0 :: restR,
              (r0 :: restR).foldl (fun a r => max a r.startKey)
                (if gs = [] then r0.startKey else gs),
              (r0 :: restR).foldl (fun a r => min a r.endKey)
                (if ge = [] then r0.endKey else ge)⟩).1,
          (rootCheck hash (r0 :: restR) values).1,
          (dfsMC hash storage values
            ⟨r0 :: restR,
              (r0 :: restR).foldl (fun a r => max a r.startKey)
                (if gs = [] then r0.startKey else gs),
              (r0 :: restR).foldl (fun a r => min a r.endKey)
                (if ge = [] then r0.endKey else ge)⟩).2)
      else ([], (rootCheck hash (r0 :: restR) values).1, 0) := rfl

/-- Claim C3 — range pruning is sound: with non-empty global bounds, every
row key returned by the multi-column query lies in `[globalStart, globalEnd]`;
the dispatched leaf scans are clipped to the leaf range intersected with the
combo range, which the DFS only ever tightens inside the seeded global
range. -/
theorem multiColumnQuery_range_sound (hash : HashF) (storage : Storage)
    (roots : List Node) (values : List Str) (gs ge key : Str)
    (hsort : ∀ f, (storage f).Pairwise (fun p q => p.1 ≤ q.1))
    (hgs : gs ≠ []) (hge : ge ≠ [])
    (hend : ∀ rt ∈ roots, ∀ d ∈ rt.allNodes, d.endKey ≠ [])
    (hkey : key ∈
      (multiColumnQueryHierarchical hash storage roots values gs ge).1) :
    gs ≤ key ∧ key ≤ ge := by
  rcases roots with _ | ⟨r0, restR⟩
  · exact absurd hkey (List.not_mem_nil key)
  rw [multiColumnQueryHierarchical_cons] at hkey
  by_cases hsh : (r0 :: restR).length ≠ values.length
  · rw [if_pos hsh] at hkey
    exact absurd hkey (List.not_mem_nil key)
  rw [if_neg hsh] at hkey
  have hlen : (r0 :: restR).length = values.length := not_ne_iff.mp hsh
  by_cases hrc2 : (rootCheck hash (r0 :: restR) values).2 = true
  · rw [if_pos hrc2, if_neg hgs, if_neg hge] at hkey
    have hsge : gs ≤ (r0 :: restR).foldl (fun a r => max a r.startKey) gs :=
      foldl_max_le_init _ _ _
    have hsne : (r0 :: restR).foldl (fun a r => max a r.startKey) gs ≠ [] :=
      fun h => hgs (str_le_nil_eq (h ▸ hsge))
    have hege : (r0 :: restR).foldl (fun a r => min a r.endKey) ge ≤ ge :=
      foldl_min_le_init _ _ _
    obtain ⟨h1, h2, _⟩ := dfsMC_sound hsort
      ⟨r0 :: restR,
        (r0 :: restR).foldl (fun a r => max a r.startKey) gs,
        (r0 :: restR).foldl (fun a r => min a r.endKey) ge⟩
      values hend hsne hlen hkey
    exact ⟨le_trans hsge h1, le_trans h2 hege⟩
  · rw [if_neg hrc2] at hkey
    exact absurd hkey (List.not_mem_nil key)

/-- Claim C1 — intersection law and no false negatives: over sorted source
files with non-empty keys, a built forest (one tree per column) answers the
multi-column query with exactly the keys that, for **every** column, a plain
scan of one of that column's files for the column's value over the global
range would return — for any filter geometry `m`, `k` and fan-out `r`. -/
theorem multiColumnQuery_intersection (hash : HashF) (storage : Storage)
    (m k N r fuel : Nat) (filesPerCol : List (List Str)) (values : List Str)
    (roots : List Node) (gs ge key : Str)
    (hm : 1 ≤ m) (hN : 1 ≤ N)
    (hsort : ∀ f, (storage f).Pairwise (fun p q => p.1 ≤ q.1))
    (hkeys : ∀ f, ∀ rc ∈ storage f, rc.1 ≠ [])
    (hF : ∀ fs ∈ filesPerCol, ∀ f ∈ fs, f ≠ memoryTag)
    (hne : filesPerCol ≠ [])
    (hlen : filesPerCol.length = values.length)
    (hbuild : buildForest hash storage m k N r fuel filesPerCol = some roots) :
    key ∈ (multiColumnQueryHierarchical hash storage roots values gs ge).1 ↔
      List.Forall₂ (fun fs v => ∃ f ∈ fs,
        key ∈ scanFileForKeysWithValue storage f v gs ge) filesPerCol values := by
  have hforest := mapM_option_forall₂ hbuild
  have hforest2 : List.Forall₂ (fun fs root =>
      buildColumn hash storage m k N r fuel fs = some root ∧
      ∀ f ∈ fs, f ≠ memoryTag) filesPerCol roots := forall₂_and_left hforest hF
  have hlenr : filesPerCol.length = roots.length := hforest.length_eq
  have hlenrv : roots.length = values.length := by rw [← hlenr]; exact hlen
  rcases roots with _ | ⟨r0, restR⟩
  · rw [List.length_nil] at hlenr
    exact absurd (List.eq_nil_of_length_eq_zero hlenr) hne
  constructor
  · intro hkey
    rw [multiColumnQueryHierarchical_cons] at hkey
    rw [if_neg (not_ne_iff.mpr hlenrv)] at hkey
    by_cases hrc2 : (rootCheck hash (r0 :: restR) values).2 = true
    · rw [if_pos hrc2] at hkey
      have hend : ∀ rt ∈ (r0 :: restR), ∀ d ∈ rt.allNodes, d.endKey ≠ [] := by
        intro rt hrt d hd
        obtain ⟨fs, hfs, hbc, hFfs⟩ := forall₂_mem_right hforest2 hrt
        exact (built_keys_ne_nil hN hkeys hFfs hbc d hd).2
      obtain ⟨fs0, hfs0, hbc0, hF0⟩ :=
        forall₂_mem_right hforest2 (List.mem_cons_self r0 restR)
      have hr0s : r0.startKey ≠ [] :=
        (built_keys_ne_nil hN hkeys hF0 hbc0 r0 r0.self_mem_allNodes).1
      have hsinit : r0.startKey ≤ (r0 :: restR).foldl
          (fun a r => max a r.startKey)
          (if gs = [] then r0.startKey else gs) :=
        foldl_max_le_mem _ _ _ r0 (List.mem_cons_self _ _)
      have hsne : (r0 :: restR).foldl (fun a r => max a r.startKey)
          (if gs = [] then r0.startKey else gs) ≠ [] :=
        fun h => hr0s (str_le_nil_eq (h ▸ hsinit))
      obtain ⟨hs_le, hke_le, hfa⟩ := dfsMC_sound hsort
        ⟨r0 :: restR,
          (r0 :: restR).foldl (fun a r => max a r.startKey)
            (if gs = [] then r0.startKey else gs),
          (r0 :: restR).foldl (fun a r => min a r.endKey)
            (if ge = [] then r0.endKey else ge)⟩
        values hend hsne hlenrv hkey
      have hga : gs = [] ∨ gs ≤ key := by
        by_cases hgs0 : gs = []
        · exact Or.inl hgs0
        · refine Or.inr (le_trans ?_ hs_le)
          refine le_trans (le_of_eq (if_neg hgs0).symm) (foldl_max_le_init _ _ _)
      have hgb : ge = [] ∨ key ≤ ge := by
        by_cases hge0 : ge = []
        · exact Or.inl hge0
        · refine Or.inr (le_trans hke_le ?_)
          refine le_trans (foldl_min_le_init _ _ _) (le_of_eq (if_neg hge0))
      refine forall₂_compose ?_ hfa (forall₂_flip_mem hforest2)
      intro nd fs v hP hQ
      obtain ⟨L, hLmem, hLfn, rc, hrcmem, hrk, hrv⟩ := hP
      obtain ⟨hbc, hFfs⟩ := hQ
      exact ⟨L.filename, built_leaf_file hN hFfs hbc hLmem hLfn,
        (scanFile_mem_iff (hsort _)).mpr ⟨rc, hrcmem, hrk, hrv, hga, hgb⟩⟩
    · rw [if_neg hrc2] at hkey
      exact absurd hkey (List.not_mem_nil key)
  · intro hrhs
    have hcw : List.Forall₂ (fun root v =>
        ColWitness storage hash m k key v root) (r0 :: restR) values := by
      refine forall₂_compose ?_ hrhs hforest2
      intro fs root v hP hQ
      obtain ⟨f, hf, hscan⟩ := hP
      exact (buildColumn_colWitness hm hN hsort hQ.2 hQ.1 hf hscan).1
    rcases filesPerCol with _ | ⟨fs0, fsr⟩
    · exact absurd rfl hne
    rcases hvs : values with _ | ⟨v0, vr⟩
    · rw [hvs] at hlenrv
      simp at hlenrv
    rw [hvs] at hrhs hcw hlenrv
    cases hrhs with
    | cons hP0 hrest =>
      obtain ⟨f0, hf0, hscan0⟩ := hP0
      obtain ⟨_, _, _, _, hga, hgb⟩ := (scanFile_mem_iff (hsort f0)).mp hscan0
      have hcw0 : ColWitness storage hash m k key v0 r0 := by
        cases hcw with
        | cons h _ => exact h
      have hs_le_key : (r0 :: restR).foldl (fun a r => max a r.startKey)
          (if gs = [] then r0.startKey else gs) ≤ key := by
        refine foldl_max_le_of _ _ _ _ ?_ ?_
        · by_cases hgs0 : gs = []
          · rw [if_pos hgs0]
            exact (colWitness_node_bounds hcw0).1
          · rw [if_neg hgs0]
            rcases hga with h | h
            · exact absurd h hgs0
            · exact h
        · intro rt hrt
          obtain ⟨v', _, hcw'⟩ := forall₂_mem_left hcw hrt
          exact (colWitness_node_bounds hcw').1
      have hkey_le_e : key ≤ (r0 :: restR).foldl (fun a r => min a r.endKey)
          (if ge = [] then r0.endKey else ge) := by
        refine le_foldl_min_of _ _ _ _ ?_ ?_
        · by_cases hge0 : ge = []
          · rw [if_pos hge0]
            exact (colWitness_node_bounds hcw0).2.1
          · rw [if_neg hge0]
            rcases hgb with h | h
            · exact absurd h hge0
            · exact h
        · intro rt hrt
          obtain ⟨v', _, hcw'⟩ := forall₂_mem_left hcw hrt
          exact (colWitness_node_bounds hcw').2.1
      have hrcall : rootCheck hash (r0 :: restR) (v0 :: vr) =
          ((r0 :: restR).length, true) := by
        refine rootCheck_all hlenrv ?_
        intro p hp
        have hpz : (p.1, p.2) ∈ (r0 :: restR).zip (v0 :: vr) := by
          rw [Prod.mk.eta]
          exact hp
        exact (colWitness_node_bounds
          ((List.forall₂_iff_zip.mp hcw).2 hpz)).2.2
      rw [multiColumnQueryHierarchical_cons]
      rw [if_neg (not_ne_iff.mpr hlenrv)]
      rw [if_pos (by rw [hrcall])]
      exact dfsMC_complete hsort
        ⟨r0 :: restR,
          (r0 :: restR).foldl (fun a r => max a r.startKey)
            (if gs = [] then r0.startKey else gs),
          (r0 :: restR).foldl (fun a r => min a r.endKey)
            (if ge = [] then r0.endKey else ge)⟩
        (v0 :: vr) hcw (List.cons_ne_nil _ _) hs_le_key hkey_le_e

theorem multiColumnQuery_intersection_witness :
    str "a" ∈ (multiColumnQueryHierarchical demoHash demoStorage [demoRoot]
        [str "x"] (str "a") (str "b")).1 ↔
      List.Forall₂ (fun fs v => ∃ f ∈ fs, str "a" ∈
        scanFileForKeysWithValue demoStorage f v (str "a") (str "b"))
        [[str "f1", str "f2"]] [str "x"] :=
  multiColumnQuery_intersection demoHash demoStorage 2 2 1 2 3
    [[str "f1", str "f2"]] [str "x"] [demoRoot] (str "a") (str "b") (str "a")
    (by norm_num) (by norm_num)
    (by
      intro f
      simp only [demoStorage]
      split_ifs <;> simp)
    (by
      intro f
      simp only [demoStorage]
      split_ifs <;> decide)
    (by decide) (by decide) (by decide) (by rfl)

theorem multiColumnQuery_range_sound_witness :
    str "a" ≤ str "a" ∧ str "a" ≤ str "b" := by
  have hsort : ∀ f, (demoStorage f).Pairwise
      (fun p q : Str × Str => p.1 ≤ q.1) := by
    intro f
    simp only [demoStorage]
    split_ifs <;> simp
  have hbuild : buildColumn demoHash demoStorage 2 2 1 2 3
      [str "f1", str "f2"] = some demoRoot := rfl
  have hkeys : ∀ f, ∀ rc ∈ demoStorage f, rc.1 ≠ [] := by
    intro f
    simp only [demoStorage]
    split_ifs <;> decide
  have hF : ∀ f ∈ [str "f1", str "f2"], f ≠ memoryTag := by decide
  have hend : ∀ rt ∈ [demoRoot], ∀ d ∈ rt.allNodes, d.endKey ≠ [] := by
    intro rt hrt
    rw [List.mem_singleton] at hrt
    subst hrt
    intro d hd
    exact (built_keys_ne_nil (by norm_num) hkeys hF hbuild d hd).2
  have hcw := buildColumn_colWitness (by norm_num) (by norm_num) hsort hF
    hbuild (show str "f1" ∈ [str "f1", str "f2"] by decide)
    (show str "a" ∈ scanFileForKeysWithValue demoStorage (str "f1") (str "x")
      (str "a") (str "b") by decide)
  have hkey : str "a" ∈ (multiColumnQueryHierarchical demoHash demoStorage
      [demoRoot] [str "x"] (str "a") (str "b")).1 := by
    rw [multiColumnQueryHierarchical_cons]
    rw [if_neg (by decide)]
    rw [if_pos (by decide)]
    refine dfsMC_complete hsort _ _
      (List.Forall₂.cons hcw.1 List.Forall₂.nil) (List.cons_ne_nil _ _)
      (by decide) (by decide)
  exact multiColumnQuery_range_sound demoHash demoStorage [demoRoot]
    [str "x"] (str "a") (str "b") (str "a") hsort (by decide) (by decide)
    hend hkey

/-- A root whose (empty) filter misses every value — used to exhibit the
short-circuit in the initial root check. -/
def missRoot : Node :=
  Node.mk (BloomFilter.mk [false, false] 2 2) memoryTag (str "a") (str "b") []

/-- Counterexample to C5 as stated: with two columns whose first root misses
the queried value, the query indeed returns the empty result with the
file-scan counter at 0 — but the initialisation consults only **one** root
filter (the loop returns at the first miss), not "each column's root exactly
once": the probe counter is 1 while there are 2 columns. -/
theorem root_probe_short_circuit :
    multiColumnQueryHierarchical demoHash demoStorage [missRoot, demoRoot]
        [str "q", str "x"] (str "a") (str "b") = ([], 1, 0) ∧
      ([missRoot, demoRoot] : List Node).length = 2 :=
  ⟨rfl, rfl⟩

/-- Claim C5 (amended) — root gate at initialisation: the roots are probed in
column order, stopping at the first miss.  If every root's filter accepts its
column's value, each column's root is consulted exactly once (the probe
counter equals the number of columns); if any root misses, the query returns
the empty result without dispatching any file scan (the scan counter stays
0), having consulted at most one root per column. -/
theorem multiColumnQuery_root_gate (hash : HashF) (storage : Storage)
    (roots : List Node) (values : List Str) (gs ge : Str)
    (hlen : roots.length = values.length) (hne : roots ≠ []) :
    ((∀ p ∈ roots.zip values, p.1.bloom.bexists hash p.2 = true) →
      (multiColumnQueryHierarchical hash storage roots values gs ge).2.1 =
        roots.length) ∧
    ((∃ p ∈ roots.zip values, p.1.bloom.bexists hash p.2 = false) →
      ∃ c ≤ roots.length,
        multiColumnQueryHierarchical hash storage roots values gs ge =
          ([], c, 0)) := by
  rcases roots with _ | ⟨r0, restR⟩
  · exact absurd rfl hne
  constructor
  · intro hall
    rw [multiColumnQueryHierarchical_cons, if_neg (not_ne_iff.mpr hlen)]
    rw [rootCheck_all hlen hall]
    rfl
  · intro hmiss
    have h := rootCheck_miss hmiss
    rw [multiColumnQueryHierarchical_cons, if_neg (not_ne_iff.mpr hlen)]
    refine ⟨(rootCheck hash (r0 :: restR) values).1,
      rootCheck_fst_le _ _, ?_⟩
    rw [if_neg (by rw [h]; exact Bool.false_ne_true)]

theorem multiColumnQuery_root_gate_witness :
    ((∀ p ∈ ([missRoot, demoRoot].zip [str "q", str "x"]),
        p.1.bloom.bexists demoHash p.2 = true) →
      (multiColumnQueryHierarchical demoHash demoStorage [missRoot, demoRoot]
        [str "q", str "x"] (str "a") (str "b")).2.1 =
          ([missRoot, demoRoot] : List Node).length) ∧
    ((∃ p ∈ ([missRoot, demoRoot].zip [str "q", str "x"]),
        p.1.bloom.bexists demoHash p.2 = false) →
      ∃ c ≤ ([missRoot, demoRoot] : List Node).length,
        multiColumnQueryHierarchical demoHash demoStorage [missRoot, demoRoot]
          [str "q", str "x"] (str "a") (str "b") = ([], c, 0)) :=
  multiColumnQuery_root_gate demoHash demoStorage [missRoot, demoRoot]
    [str "q", str "x"] (str "a") (str "b") (by decide)
    (List.cons_ne_nil _ _)
